import Mathlib

set_option linter.unusedVariables false

/-!
Verification model of the AeroSpace IPC client (src/aerospace.c, src/aerospace.h).

The client talks a newline-delimited JSON request/response protocol over a Unix
domain socket.  The C sources under verification are `aerospace.c` and
`aerospace.h`; the JSON library (`yyjson`) and the operating-system socket layer
are external to the sources, so they are modelled from the specification:

* the socket world is modelled by an explicit event list (`ReadEv`): each
  `read` consumes bytes from the front of the next chunk (at most the free
  space of the buffer, as `read(2)` does), a `closed` event is a zero-byte
  read, and the two error events are a timeout (`EAGAIN`/`EWOULDBLOCK`) and
  any other read error; an empty event list behaves like a timeout, since with
  `SO_RCVTIMEO` set a read with no incoming data eventually returns a timeout;
* `writev` is modelled by a boolean outcome (`writeOk`); the bytes written are
  irrelevant to the behaviour of the client itself;
* `yyjson_read_opts` with `YYJSON_READ_STOP_WHEN_DONE` is modelled from the
  spec by `parseDoc`: it skips leading whitespace, parses the first complete
  JSON document from the prefix of the buffer and reports how many bytes were
  consumed (`yyjson_doc_get_read_size`); string escape sequences are not
  modelled, so theorems about serialized documents restrict string contents to
  characters that need no escaping;
* `yyjson_get_int` returns a 64-bit integer and `aerospace.c` casts it to the
  32-bit C `int`, which is modelled by `wrap32`.

Machine integers: `command_count` is a C `unsigned int`, so its increment is
taken modulo `2 ^ 32` (`UINT32_MOD`); `read_buf_len` is a `size_t` bounded by
the buffer capacity 8192, modelled as the length of the `read_buf` list.
-/

def READ_BUFFER_SIZE : Nat := 8192

def AEROSPACE_RECONNECT_INTERVAL : Nat := 50

def UINT32_MOD : Nat := 4294967296

/-- Conversion of a (possibly 64-bit) integer to the 32-bit signed C `int`,
as performed by the cast `(int)yyjson_get_int(...)` at aerospace.c:222. -/
def wrap32 (n : Int) : Int := (n + 2147483648) % 4294967296 - 2147483648

/-- JSON values, as produced by the modelled yyjson parser. -/
inductive JVal where
  | null : JVal
  | bool : Bool → JVal
  | int : Int → JVal
  | str : List Char → JVal
  | arr : List JVal → JVal
  | obj : List (List Char × JVal) → JVal

def isWsChar (c : Char) : Bool := c = ' ' || c = '\n' || c = '\t' || c = '\r'

def skipWs : List Char → List Char
  | [] => []
  | c :: cs => if isWsChar c then skipWs cs else c :: cs

def isDigitChar (c : Char) : Bool := 48 ≤ c.toNat && c.toNat ≤ 57

def digitVal (c : Char) : Nat := c.toNat - 48

/-- A printable ASCII character that needs no JSON escaping. -/
def validChar (c : Char) : Bool :=
  32 ≤ c.toNat && c.toNat < 128 && !(c = '"') && !(c = '\\')

/-- Body of a JSON string after the opening quote: the characters up to the
closing quote.  Escape sequences are outside the model. -/
def parseStrChars : List Char → Option (List Char × List Char)
  | [] => none
  | c :: cs =>
    if c = '"' then some ([], cs)
    else if c = '\\' then none
    else match parseStrChars cs with
      | none => none
      | some (s, r) => some (c :: s, r)

def parseDigitsAux : Nat → List Char → Nat × List Char
  | acc, [] => (acc, [])
  | acc, c :: cs => if isDigitChar c then parseDigitsAux (acc * 10 + digitVal c) cs else (acc, c :: cs)

def parseNum : List Char → Option (Int × List Char)
  | [] => none
  | c :: cs =>
    if c = '-' then
      match cs with
      | [] => none
      | d :: ds =>
        if isDigitChar d then
          match parseDigitsAux (digitVal d) ds with
          | (n, r) => some (-(n : Int), r)
        else none
    else if isDigitChar c then
      match parseDigitsAux (digitVal c) cs with
      | (n, r) => some ((n : Int), r)
    else none

mutual

/-- Modelled from the spec: the yyjson document parser in
`YYJSON_READ_STOP_WHEN_DONE` mode (yyjson is not part of the repository
sources).  It parses one JSON value from the front of the input and returns
the value together with the unconsumed suffix; it stops at the first
structurally complete document and never looks past it.  The `fuel` argument
bounds the recursion depth and is chosen large enough by `parseDoc`. -/
def parseValCore : Nat → List Char → Option (JVal × List Char)
  | 0, _ => none
  | fuel + 1, s =>
    match s with
    | [] => none
    | c :: cs =>
      if c = '{' then
        match skipWs cs with
        | '}' :: r => some (JVal.obj [], r)
        | s2 =>
          match parseMembers fuel s2 with
          | none => none
          | some (ms, r) => some (JVal.obj ms, r)
      else if c = '[' then
        match skipWs cs with
        | ']' :: r => some (JVal.arr [], r)
        | s2 =>
          match parseElems fuel s2 with
          | none => none
          | some (vs, r) => some (JVal.arr vs, r)
      else if c = '"' then
        match parseStrChars cs with
        | none => none
        | some (body, r) => some (JVal.str body, r)
      else if c = 'n' then
        match cs with
        | 'u' :: 'l' :: 'l' :: r => some (JVal.null, r)
        | _ => none
      else if c = 't' then
        match cs with
        | 'r' :: 'u' :: 'e' :: r => some (JVal.bool true, r)
        | _ => none
      else if c = 'f' then
        match cs with
        | 'a' :: 'l' :: 's' :: 'e' :: r => some (JVal.bool false, r)
        | _ => none
      else
        match parseNum (c :: cs) with
        | none => none
        | some (n, r) => some (JVal.int n, r)

/-- Members of a nonempty JSON object, after the opening brace (whitespace
already skipped); ends at the matching closing brace. -/
def parseMembers : Nat → List Char → Option (List (List Char × JVal) × List Char)
  | 0, _ => none
  | fuel + 1, s =>
    match s with
    | '"' :: cs =>
      match parseStrChars cs with
      | none => none
      | some (k, r1) =>
        match skipWs r1 with
        | ':' :: r2 =>
          match parseValCore fuel (skipWs r2) with
          | none => none
          | some (v, r3) =>
            match skipWs r3 with
            | ',' :: r4 =>
              match parseMembers fuel (skipWs r4) with
              | none => none
              | some (ms, r5) => some ((k, v) :: ms, r5)
            | '}' :: r4 => some ([ (k, v) ], r4)
            | _ => none
        | _ => none
    | _ => none

/-- Elements of a nonempty JSON array, ending at the closing bracket. -/
def parseElems : Nat → List Char → Option (List JVal × List Char)
  | 0, _ => none
  | fuel + 1, s =>
    match parseValCore fuel s with
    | none => none
    | some (v, r1) =>
      match skipWs r1 with
      | ',' :: r2 =>
        match parseElems fuel (skipWs r2) with
        | none => none
        | some (vs, r3) => some (v :: vs, r3)
      | ']' :: r2 => some ([ v ], r2)
      | _ => none

end

/-- Modelled from the spec: `yyjson_read_opts(buf, len, YYJSON_READ_STOP_WHEN_DONE)`
followed by `yyjson_doc_get_read_size`.  Returns the parsed document and the
number of bytes consumed from the front of the buffer (leading whitespace
included), or `none` when no complete document is parseable from the prefix. -/
def parseDoc (s : List Char) : Option (JVal × Nat) :=
  match parseValCore (2 * s.length + 2) (skipWs s) with
  | none => none
  | some (v, r) => some (v, s.length - r.length)

/-- Atomic JSON values, used to describe the single-level response envelopes
that the protocol exchanges (`exitCode`, `stderr`, the success field …). -/
inductive JAtom where
  | null : JAtom
  | bool : Bool → JAtom
  | int : Int → JAtom
  | str : List Char → JAtom

def atomVal : JAtom → JVal
  | JAtom.null => JVal.null
  | JAtom.bool b => JVal.bool b
  | JAtom.int n => JVal.int n
  | JAtom.str s => JVal.str s

def digitChar : Nat → Char
  | 0 => '0'
  | 1 => '1'
  | 2 => '2'
  | 3 => '3'
  | 4 => '4'
  | 5 => '5'
  | 6 => '6'
  | 7 => '7'
  | 8 => '8'
  | _ => '9'

def natDigitsF : Nat → Nat → List Char
  | 0, _ => []
  | fuel + 1, n => if n < 10 then [ digitChar n ] else natDigitsF fuel (n / 10) ++ [ digitChar (n % 10) ]

/-- Decimal digits of a natural number, most significant first. -/
def natDigits (n : Nat) : List Char := natDigitsF (n + 1) n

/-- Compact decimal serialization of an integer, as yyjson writes it. -/
def intSer (n : Int) : List Char :=
  if n < 0 then '-' :: natDigits (-n).toNat else natDigits n.toNat

def jserAtom : JAtom → List Char
  | JAtom.null => [ 'n', 'u', 'l', 'l' ]
  | JAtom.bool true => [ 't', 'r', 'u', 'e' ]
  | JAtom.bool false => [ 'f', 'a', 'l', 's', 'e' ]
  | JAtom.int n => intSer n
  | JAtom.str s => '"' :: s ++ [ '"' ]

def memberSer (k : List Char) (a : JAtom) : List Char :=
  '"' :: k ++ '"' :: ':' :: jserAtom a

def membersSer : List (List Char × JAtom) → List Char
  | [] => []
  | [ (k, a) ] => memberSer k a
  | (k, a) :: kv :: kvs => memberSer k a ++ ',' :: membersSer (kv :: kvs)

/-- Compact serialization of a single-level JSON object document. -/
def jserFlat (kvs : List (List Char × JAtom)) : List Char :=
  match kvs with
  | [] => [ '{', '}' ]
  | _ => '{' :: membersSer kvs ++ [ '}' ]

def toJVal (kvs : List (List Char × JAtom)) : JVal :=
  JVal.obj (kvs.map (fun kv => (kv.1, atomVal kv.2)))

def validKey (k : List Char) : Bool := k.all validChar

def validAtom : JAtom → Bool
  | JAtom.str s => s.all validChar
  | _ => true

def validFlat (kvs : List (List Char × JAtom)) : Bool :=
  kvs.all (fun kv => validKey kv.1 && validAtom kv.2)

/-- The client state (struct aerospace): socket handle (present iff `fd >= 0`
in C), owned socket path, the valid prefix of the fixed 8192-byte read buffer,
and the per-connection command counter. -/
structure aerospace where
  fd : Option Unit
  socket_path : Option (List Char)
  read_buf : List Char
  command_count : Nat
deriving DecidableEq

/-- One event of the socket read stream. -/
inductive ReadEv where
  | chunk : List Char → ReadEv
  | closed : ReadEv
  | errTimeout : ReadEv
  | errOther : ReadEv
deriving DecidableEq

inductive LoopRes where
  | parsed : JVal → Nat → List Char → List ReadEv → LoopRes
  | overflow : List ReadEv → LoopRes
  | peerClosed : List ReadEv → LoopRes
  | timedOut : List ReadEv → LoopRes
  | readErr : List ReadEv → LoopRes
  | fuelOut : List ReadEv → LoopRes

/-- The read-and-parse loop of `execute_aerospace_command` (aerospace.c:182-210):
try to parse a document from the buffer prefix, fail with a framing overflow if
the buffer is full without a complete document, otherwise read more bytes into
the free suffix.  A read delivers at most the free space of the buffer; a
delivered count of zero is the peer closing the connection.  The fuel bounds
the iterations; `execute_aerospace_command` supplies enough fuel that
`LoopRes.fuelOut` is unreachable (every iteration grows the buffer). -/
def readLoop : Nat → List Char → List ReadEv → LoopRes
  | 0, _, evs => LoopRes.fuelOut evs
  | fuel + 1, buf, evs =>
    match (if 0 < buf.length then parseDoc buf else none) with
    | some (v, consumed) => LoopRes.parsed v consumed buf evs
    | none =>
      if READ_BUFFER_SIZE ≤ buf.length then LoopRes.overflow evs
      else
        match evs with
        | [] => LoopRes.timedOut []
        | ReadEv.closed :: rest => LoopRes.peerClosed rest
        | ReadEv.errTimeout :: rest => LoopRes.timedOut rest
        | ReadEv.errOther :: rest => LoopRes.readErr rest
        | ReadEv.chunk data :: rest =>
          let delivered := data.take (READ_BUFFER_SIZE - buf.length)
          if delivered.length = 0 then LoopRes.peerClosed rest
          else
            let leftover := data.drop (READ_BUFFER_SIZE - buf.length)
            readLoop fuel (buf ++ delivered)
              (if leftover.isEmpty then rest else ReadEv.chunk leftover :: rest)

def exitCodeKey : List Char := [ 'e', 'x', 'i', 't', 'C', 'o', 'd', 'e' ]

def stderrKey : List Char := [ 's', 't', 'd', 'e', 'r', 'r' ]

def stdoutKey : List Char := [ 's', 't', 'd', 'o', 'u', 't' ]

/-- `yyjson_obj_get`: first binding of the key in an object, `none` on a
non-object or a missing key. -/
def objGet : JVal → List Char → Option JVal
  | JVal.obj kvs, k =>
    match kvs.find? (fun kv => decide (kv.1 = k)) with
    | none => none
    | some kv => some kv.2
  | _, _ => none

/-- Result extraction from a parsed response (aerospace.c:217-242).
`none` is the malformed-response case (missing or non-integer `exitCode`);
`some r` is the value the C function returns (`r = none` is a NULL result).
The `exitCode` comparison uses the value truncated to a 32-bit `int` by the
cast at aerospace.c:222. -/
def responseResult (root : JVal) (expected_output_field : Option (List Char)) :
    Option (Option (List Char)) :=
  match objGet root exitCodeKey with
  | some (JVal.int n0) =>
    if wrap32 n0 ≠ 0 then
      some (match objGet root stderrKey with
        | some (JVal.str s) => some s
        | _ => none)
    else
      match expected_output_field with
      | some f =>
        some (match objGet root f with
          | some (JVal.str s) => some s
          | _ => none)
      | none => some none
  | _ => none

/-- The distinct return sites of `execute_aerospace_command`, in source order.
`success r` is the single non-error return at the end of the function;
`fuelExhausted` is an artefact of the fuelled loop and is proved unreachable. -/
inductive ExecOutcome where
  | invalidArgs : ExecOutcome
  | notConnected : ExecOutcome
  | writeFailed : ExecOutcome
  | bufOverflow : ExecOutcome
  | peerClosed : ExecOutcome
  | readTimeout : ExecOutcome
  | readError : ExecOutcome
  | fuelExhausted : ExecOutcome
  | malformed : ExecOutcome
  | success : Option (List Char) → ExecOutcome
deriving DecidableEq

/-- The `char*` actually returned by the C function for each outcome:
NULL for every failure, the extracted string (or NULL) on success. -/
def outcomeResult : ExecOutcome → Option (List Char)
  | ExecOutcome.success r => r
  | _ => none

/-- `execute_aerospace_command(client, args, arg_count, stdin_payload,
expected_output_field)` (aerospace.c:129-243).  `client = none` is a NULL
client pointer, `args = none` a NULL argument array, `args = some []` an
`arg_count` of zero.  The request serialization (lines 142-164) only affects
the bytes put on the wire, which the model abstracts into the `writeOk`
outcome of the vectored write.  Returns the outcome, the updated client and
the remaining socket events. -/
def execute_aerospace_command (client : Option aerospace) (args : Option (List String))
    (stdin_payload : Option String) (expected_output_field : Option (List Char))
    (writeOk : Bool) (reads : List ReadEv) :
    ExecOutcome × Option aerospace × List ReadEv :=
  match client with
  | none => (ExecOutcome.invalidArgs, none, reads)
  | some st =>
    match args with
    | none => (ExecOutcome.invalidArgs, some st, reads)
    | some a =>
      if a.length = 0 then (ExecOutcome.invalidArgs, some st, reads)
      else if st.fd.isNone then (ExecOutcome.notConnected, some st, reads)
      else if writeOk = false then
        (ExecOutcome.writeFailed, some { st with fd := none, read_buf := [] }, reads)
      else
        let st1 := { st with command_count := (st.command_count + 1) % UINT32_MOD }
        match readLoop (READ_BUFFER_SIZE + 2) st1.read_buf reads with
        | LoopRes.parsed v consumed buf evs =>
          let st2 := { st1 with read_buf := buf.drop consumed }
          match responseResult v expected_output_field with
          | none => (ExecOutcome.malformed, some st2, evs)
          | some r => (ExecOutcome.success r, some st2, evs)
        | LoopRes.overflow evs =>
          (ExecOutcome.bufOverflow, some { st1 with read_buf := [] }, evs)
        | LoopRes.peerClosed evs =>
          (ExecOutcome.peerClosed, some { st1 with fd := none, read_buf := [] }, evs)
        | LoopRes.timedOut evs =>
          (ExecOutcome.readTimeout, some { st1 with fd := none, read_buf := [] }, evs)
        | LoopRes.readErr evs =>
          (ExecOutcome.readError, some { st1 with fd := none, read_buf := [] }, evs)
        | LoopRes.fuelOut evs => (ExecOutcome.fuelExhausted, some st1, evs)

/-- `reconnect` (aerospace.c:108-127): close any held handle, reset the buffer
and the counter, then attempt a fresh connect whose outcome is `connectOk`.
Returns the C result (1 on success, 0 on failure) and the new state. -/
def reconnect (client : aerospace) (connectOk : Bool) : Nat × aerospace :=
  match client.socket_path with
  | none => (0, client)
  | some _ =>
    ( if connectOk then 1 else 0
    , { client with
        fd := if connectOk then some () else none
        read_buf := []
        command_count := 0 } )

/-- `aerospace_ensure_connected` (aerospace.c:266-286). -/
def aerospace_ensure_connected (client : Option aerospace) (connectOk : Bool) :
    Nat × Option aerospace :=
  match client with
  | none => (0, none)
  | some st =>
    if st.fd.isNone then
      let p := reconnect st connectOk
      (if p.2.fd.isSome then 1 else 0, some p.2)
    else if AEROSPACE_RECONNECT_INTERVAL ≤ st.command_count then
      let p := reconnect st connectOk
      (if p.2.fd.isSome then 1 else 0, some p.2)
    else (1, some st)

/-- `aerospace_new` (aerospace.c:245-264); `defaultPath` is the path supplied
by the external default-socket-path collaborator when `socketPath` is NULL,
and `connectOk` the outcome of the initial connect attempt. -/
def aerospace_new (socketPath : Option (List Char)) (defaultPath : List Char)
    (connectOk : Bool) : aerospace :=
  { fd := if connectOk then some () else none
  , socket_path := some (match socketPath with | some p => p | none => defaultPath)
  , read_buf := []
  , command_count := 0 }

/-- `aerospace_close` (aerospace.c:288-302): a no-op on NULL, otherwise closes
the handle and frees the client. -/
def aerospace_close : Option aerospace → Option aerospace
  | none => none
  | some _ => none

/-- `aerospace_workspace` (aerospace.c:309-318). -/
def aerospace_workspace (client : Option aerospace) (wrap_around : Bool)
    (ws_command : String) (stdin_payload : String) (writeOk : Bool)
    (reads : List ReadEv) : ExecOutcome × Option aerospace × List ReadEv :=
  execute_aerospace_command client
    (some (if wrap_around then [ ("workspace"), ws_command, ("--wrap-around") ]
           else [ ("workspace"), ws_command ]))
    (some stdin_payload) none writeOk reads

/-- `aerospace_switch` (aerospace.c:304-307). -/
def aerospace_switch (client : Option aerospace) (direction : String)
    (writeOk : Bool) (reads : List ReadEv) : ExecOutcome × Option aerospace × List ReadEv :=
  aerospace_workspace client false direction ("") writeOk reads

/-- `aerospace_list_workspaces` (aerospace.c:320-329). -/
def aerospace_list_workspaces (client : Option aerospace) (include_empty : Bool)
    (writeOk : Bool) (reads : List ReadEv) : ExecOutcome × Option aerospace × List ReadEv :=
  if include_empty then
    execute_aerospace_command client
      (some [ ("list-workspaces"), ("--monitor"), ("focused") ]) (some ("")) (some stdoutKey)
      writeOk reads
  else
    execute_aerospace_command client
      (some [ ("list-workspaces"), ("--monitor"), ("focused"), ("--empty"), ("no") ])
      (some ("")) (some stdoutKey) writeOk reads

/-- Client states reachable through the public operations (create,
ensureConnected, the workspace and list commands, close), under every possible
behaviour of the socket world. -/
inductive Reachable : Option aerospace → Prop where
  | new : ∀ sp dp ok, Reachable (some (aerospace_new sp dp ok))
  | ensure : ∀ c ok, Reachable c → Reachable (aerospace_ensure_connected c ok).2
  | closeStep : ∀ c, Reachable c → Reachable (aerospace_close c)
  | workspace : ∀ c w cmd payload wOk reads, Reachable c →
      Reachable (aerospace_workspace c w cmd payload wOk reads).2.1
  | switch : ∀ c d wOk reads, Reachable c →
      Reachable (aerospace_switch c d wOk reads).2.1
  | listws : ∀ c ie wOk reads, Reachable c →
      Reachable (aerospace_list_workspaces c ie wOk reads).2.1

/-- Iterated command execution: `n` consecutive `execute_aerospace_command`
calls with the same arguments over one socket event stream. -/
def runCalls : Nat → Option aerospace → Option (List String) → Option String →
    Option (List Char) → List ReadEv →
    List ExecOutcome × Option aerospace × List ReadEv
  | 0, c, _, _, _, evs => ([], c, evs)
  | n + 1, c, args, payload, field, evs =>
    match execute_aerospace_command c args payload field true evs with
    | (o, c2, evs2) =>
      match runCalls n c2 args payload field evs2 with
      | (os, c3, evs3) => (o :: os, c3, evs3)

def evData : ReadEv → List Char
  | ReadEv.chunk d => d
  | _ => []

/-- All bytes carried by a socket event stream. -/
def joinEv (evs : List ReadEv) : List Char := (evs.map evData).flatten

def chunkOk : ReadEv → Bool
  | ReadEv.chunk d => decide (d ≠ [])
  | _ => false

/-- The stream consists only of nonempty data chunks (no close, no error). -/
def chunksOnly (evs : List ReadEv) : Bool := evs.all chunkOk

/-- One wire document: optional leading whitespace (for instance the newline
terminating the previous document) followed by a serialized flat object. -/
def docBytes (d : List Char × List (List Char × JAtom)) : List Char :=
  d.1 ++ jserFlat d.2

def docsStream (docs : List (List Char × List (List Char × JAtom))) : List Char :=
  (docs.map docBytes).flatten

/-- Well-formedness of one wire document: whitespace-only separator, valid
keys and strings, and the document (with its separator) fits in the buffer. -/
def docOk (d : List Char × List (List Char × JAtom)) : Bool :=
  d.1.all isWsChar && validFlat d.2 &&
    decide ((d.1 ++ jserFlat d.2).length ≤ READ_BUFFER_SIZE)

/-- The outcome `execute_aerospace_command` produces once it has parsed the
document `kvs`, as a function of the document alone. -/
def outcomeOf (kvs : List (List Char × JAtom)) (field : Option (List Char)) : ExecOutcome :=
  match responseResult (toJVal kvs) field with
  | none => ExecOutcome.malformed
  | some r => ExecOutcome.success r

/-- A response whose `exitCode` is present as a JSON integer. -/
def hasIntExit (v : JVal) : Bool :=
  match objGet v exitCodeKey with
  | some (JVal.int _) => true
  | _ => false

/-- The list does not begin with a decimal digit (used to delimit numbers). -/
def nonDigitStartB : List Char → Bool
  | [] => true
  | c :: _ => !isDigitChar c


/-- Concrete wire documents and worlds used to witness the claim theorems. -/
def wdoc1 : List (List Char × JAtom) :=
  [ (exitCodeKey, JAtom.int 0), (stdoutKey, JAtom.str [ 'o', 'k' ]) ]

def wdoc2 : List (List Char × JAtom) :=
  [ (exitCodeKey, JAtom.int 1), (stderrKey, JAtom.str [ 'b', 'o', 'o', 'm' ]) ]

def wdocs : List (List Char × List (List Char × JAtom)) :=
  [ ([], wdoc1), ([ '\n' ], wdoc2) ]

def wclient : aerospace := aerospace_new none [ 'p' ] true

def wevs : List ReadEv :=
  [ ReadEv.chunk ((docsStream wdocs).take 9), ReadEv.chunk ((docsStream wdocs).drop 9) ]

/-- A response envelope with no `exitCode` field (malformed). -/
def mdoc : List (List Char × JAtom) := [ (stdoutKey, JAtom.str [ 'x' ]) ]

/-- A response whose `exitCode` is the JSON integer 2^32: non-zero as a JSON
integer, but zero after the C `int` cast. -/
def bigdoc : List (List Char × JAtom) :=
  [ (exitCodeKey, JAtom.int 4294967296), (stderrKey, JAtom.str [ 'b', 'o', 'o', 'm' ]),
    (stdoutKey, JAtom.str [ 'o', 'k' ]) ]

/-! ### Basic character and token lemmas -/

theorem digitChar_spec : ∀ d : Nat, d < 10 →
    isDigitChar (digitChar d) = true ∧ digitVal (digitChar d) = d := by
  intro d hd
  match d, hd with
  | 0, _ => exact ⟨by decide, by decide⟩
  | 1, _ => exact ⟨by decide, by decide⟩
  | 2, _ => exact ⟨by decide, by decide⟩
  | 3, _ => exact ⟨by decide, by decide⟩
  | 4, _ => exact ⟨by decide, by decide⟩
  | 5, _ => exact ⟨by decide, by decide⟩
  | 6, _ => exact ⟨by decide, by decide⟩
  | 7, _ => exact ⟨by decide, by decide⟩
  | 8, _ => exact ⟨by decide, by decide⟩
  | 9, _ => exact ⟨by decide, by decide⟩

theorem digit_props {c : Char} (h : isDigitChar c = true) :
    c ≠ '{' ∧ c ≠ '[' ∧ c ≠ '"' ∧ c ≠ 'n' ∧ c ≠ 't' ∧ c ≠ 'f' ∧ c ≠ '-' ∧
      isWsChar c = false := by
  simp only [isDigitChar, Bool.and_eq_true, decide_eq_true_eq] at h
  refine ⟨?_, ?_, ?_, ?_, ?_, ?_, ?_, ?_⟩
  · intro he; subst he; exact absurd h (by decide)
  · intro he; subst he; exact absurd h (by decide)
  · intro he; subst he; exact absurd h (by decide)
  · intro he; subst he; exact absurd h (by decide)
  · intro he; subst he; exact absurd h (by decide)
  · intro he; subst he; exact absurd h (by decide)
  · intro he; subst he; exact absurd h (by decide)
  · simp only [isWsChar, Bool.or_eq_false_iff, decide_eq_false_iff_not]
    refine ⟨⟨⟨?_, ?_⟩, ?_⟩, ?_⟩ <;> (intro he; subst he; exact absurd h (by decide))

theorem skipWs_cons_not {c : Char} (cs : List Char) (h : isWsChar c = false) :
    skipWs (c :: cs) = c :: cs := by
  simp [skipWs, h]

theorem skipWs_ws_append (w s : List Char) (h : w.all isWsChar = true) :
    skipWs (w ++ s) = skipWs s := by
  induction w with
  | nil => rfl
  | cons c cs ih =>
    simp only [List.all_cons, Bool.and_eq_true] at h
    simp only [List.cons_append, skipWs, h.1, if_true]
    exact ih h.2

theorem parseStrChars_valid (k : List Char) (r : List Char) (h : k.all validChar = true) :
    parseStrChars (k ++ '"' :: r) = some (k, r) := by
  induction k with
  | nil => rfl
  | cons c cs ih =>
    simp only [List.all_cons, Bool.and_eq_true] at h
    have hc := h.1
    simp only [validChar, Bool.and_eq_true, Bool.not_eq_true', decide_eq_false_iff_not] at hc
    simp only [List.cons_append, parseStrChars, if_neg hc.1.2, if_neg hc.2,
      List.append_eq, ih h.2]

theorem parseStrChars_valid_none (s : List Char) (h : s.all validChar = true) :
    parseStrChars s = none := by
  induction s with
  | nil => rfl
  | cons c cs ih =>
    simp only [List.all_cons, Bool.and_eq_true] at h
    have hc := h.1
    simp only [validChar, Bool.and_eq_true, Bool.not_eq_true', decide_eq_false_iff_not] at hc
    simp only [parseStrChars, if_neg hc.1.2, if_neg hc.2, ih h.2]

theorem parseDigitsAux_stop (acc : Nat) (rest : List Char) (h : nonDigitStartB rest = true) :
    parseDigitsAux acc rest = (acc, rest) := by
  cases rest with
  | nil => rfl
  | cons c cs =>
    simp only [nonDigitStartB, Bool.not_eq_true'] at h
    simp [parseDigitsAux, h]

theorem parseDigitsAux_run (ds : List Char) (acc : Nat) (rest : List Char)
    (hds : ds.all isDigitChar = true) (hr : nonDigitStartB rest = true) :
    parseDigitsAux acc (ds ++ rest) =
      (ds.foldl (fun a c => a * 10 + digitVal c) acc, rest) := by
  induction ds generalizing acc with
  | nil => simpa using parseDigitsAux_stop acc rest hr
  | cons c cs ih =>
    simp only [List.all_cons, Bool.and_eq_true] at hds
    simp only [List.cons_append, parseDigitsAux, hds.1, if_true, List.foldl_cons]
    exact ih (acc * 10 + digitVal c) hds.2

theorem natDigitsF_spec : ∀ fuel n, n < fuel →
    natDigitsF fuel n ≠ [] ∧ (natDigitsF fuel n).all isDigitChar = true ∧
      ∀ acc, (natDigitsF fuel n).foldl (fun a c => a * 10 + digitVal c) acc =
        acc * 10 ^ (natDigitsF fuel n).length + n := by
  intro fuel
  induction fuel with
  | zero => intro n hn; omega
  | succ fuel ih =>
    intro n hn
    by_cases h10 : n < 10
    · have hd := digitChar_spec n h10
      refine ⟨by simp [natDigitsF, h10], by simp [natDigitsF, h10, hd.1], ?_⟩
      intro acc
      simp [natDigitsF, h10, hd.2]
    · have hdiv : n / 10 < n := Nat.div_lt_self (by omega) (by omega)
      have ihn := ih (n / 10) (by omega)
      have hd := digitChar_spec (n % 10) (by omega)
      refine ⟨by simp [natDigitsF, h10], ?_, ?_⟩
      · simp [natDigitsF, h10, List.all_append, ihn.2.1, hd.1]
      · intro acc
        simp only [natDigitsF, if_neg h10, List.foldl_append, ihn.2.2 acc,
          List.foldl_cons, List.foldl_nil, List.length_append, List.length_cons,
          List.length_nil, hd.2]
        have hmod := Nat.div_add_mod n 10
        have hpow : acc * 10 ^ ((natDigitsF fuel (n / 10)).length + (0 + 1)) =
            acc * 10 ^ (natDigitsF fuel (n / 10)).length * 10 := by
          ring
        rw [hpow]
        generalize acc * 10 ^ (natDigitsF fuel (n / 10)).length = A
        omega

theorem natDigits_spec (n : Nat) :
    natDigits n ≠ [] ∧ (natDigits n).all isDigitChar = true ∧
      (natDigits n).foldl (fun a c => a * 10 + digitVal c) 0 = n := by
  have h := natDigitsF_spec (n + 1) n (by omega)
  exact ⟨h.1, h.2.1, by simpa using h.2.2 0⟩

theorem parseNum_digits (m : Nat) (rest : List Char) (hr : nonDigitStartB rest = true) :
    ∃ d ds, natDigits m = d :: ds ∧ isDigitChar d = true ∧
      parseDigitsAux (digitVal d) (ds ++ rest) = (m, rest) := by
  obtain ⟨hne, hall, hfold⟩ := natDigits_spec m
  obtain ⟨d, ds, hds⟩ := List.exists_cons_of_ne_nil hne
  rw [hds] at hall hfold
  simp only [List.all_cons, Bool.and_eq_true] at hall
  refine ⟨d, ds, hds, hall.1, ?_⟩
  rw [parseDigitsAux_run ds (digitVal d) rest hall.2 hr]
  simp only [List.foldl_cons, Nat.zero_mul, Nat.zero_add] at hfold
  rw [hfold]

theorem parseNum_intSer (n : Int) (rest : List Char) (hr : nonDigitStartB rest = true) :
    parseNum (intSer n ++ rest) = some (n, rest) := by
  by_cases hneg : n < 0
  · obtain ⟨d, ds, hds, hdig, haux⟩ := parseNum_digits (-n).toNat rest hr
    simp only [intSer, if_pos hneg, hds, List.cons_append, parseNum, if_pos rfl, hdig,
      if_true, haux]
    congr 1
    congr 1
    omega
  · obtain ⟨d, ds, hds, hdig, haux⟩ := parseNum_digits n.toNat rest hr
    have hprops := digit_props hdig
    simp only [intSer, if_neg hneg, hds, List.cons_append, parseNum, if_neg hprops.2.2.2.2.2.2.1,
      hdig, if_true, haux]
    congr 1
    congr 1
    omega

/-! ### Parsing serialized atoms -/

theorem parseValCore_zero (s : List Char) : parseValCore 0 s = none := rfl

theorem parseValCore_nil : ∀ F, parseValCore F [] = none := by
  intro F
  cases F <;> rfl

theorem parseMembers_nil : ∀ F, parseMembers F [] = none := by
  intro F
  cases F <;> rfl

theorem natDigits_cons (m : Nat) : ∃ d ds, natDigits m = d :: ds ∧ isDigitChar d = true := by
  obtain ⟨hne, hall, -⟩ := natDigits_spec m
  obtain ⟨d, ds, hds⟩ := List.exists_cons_of_ne_nil hne
  rw [hds] at hall
  simp only [List.all_cons, Bool.and_eq_true] at hall
  exact ⟨d, ds, hds, hall.1⟩

theorem intSer_head (n : Int) : ∃ c cs, intSer n = c :: cs ∧
    c ≠ '{' ∧ c ≠ '[' ∧ c ≠ '"' ∧ c ≠ 'n' ∧ c ≠ 't' ∧ c ≠ 'f' ∧ isWsChar c = false := by
  by_cases hneg : n < 0
  · exact ⟨'-', natDigits (-n).toNat, by simp [intSer, hneg], by decide, by decide,
      by decide, by decide, by decide, by decide, by decide⟩
  · obtain ⟨d, ds, hds, hdig⟩ := natDigits_cons n.toNat
    have hp := digit_props hdig
    exact ⟨d, ds, by simp [intSer, hneg, hds], hp.1, hp.2.1, hp.2.2.1, hp.2.2.2.1,
      hp.2.2.2.2.1, hp.2.2.2.2.2.1, hp.2.2.2.2.2.2.2⟩

theorem skipWs_jserAtom (a : JAtom) (X : List Char) :
    skipWs (jserAtom a ++ X) = jserAtom a ++ X := by
  cases a with
  | null => rfl
  | bool b => cases b <;> rfl
  | str s => rfl
  | int n =>
    obtain ⟨c, cs, hser, -, -, -, -, -, -, hws⟩ := intSer_head n
    simp only [jserAtom, hser, List.cons_append]
    exact skipWs_cons_not _ hws

theorem parseValCore_num (F : Nat) (c : Char) (cs : List Char)
    (h1 : c ≠ '{') (h2 : c ≠ '[') (h3 : c ≠ '"') (h4 : c ≠ 'n') (h5 : c ≠ 't')
    (h6 : c ≠ 'f') :
    parseValCore (F + 1) (c :: cs) =
      match parseNum (c :: cs) with
      | none => none
      | some (n, r) => some (JVal.int n, r) := by
  simp only [parseValCore, if_neg h1, if_neg h2, if_neg h3, if_neg h4, if_neg h5, if_neg h6]

theorem parseValCore_quote (F : Nat) (cs : List Char) :
    parseValCore (F + 1) ('"' :: cs) =
      match parseStrChars cs with
      | none => none
      | some (body, r) => some (JVal.str body, r) := by
  simp only [parseValCore]
  rw [if_neg (by decide), if_neg (by decide)]
  simp

theorem parseValCore_atom (F : Nat) (a : JAtom) (rest : List Char)
    (hv : validAtom a = true)
    (hg : ∀ m, a = JAtom.int m → nonDigitStartB rest = true) :
    parseValCore (F + 1) (jserAtom a ++ rest) = some (atomVal a, rest) := by
  cases a with
  | null => rfl
  | bool b => cases b <;> rfl
  | str s =>
    have hass : jserAtom (JAtom.str s) ++ rest = '"' :: (s ++ '"' :: rest) := by
      simp [jserAtom]
    rw [hass, parseValCore_quote]
    simp only [validAtom] at hv
    rw [parseStrChars_valid s rest hv]
    rfl

  | int m =>
    obtain ⟨c, cs, hser, h1, h2, h3, h4, h5, h6, -⟩ := intSer_head m
    have hass : jserAtom (JAtom.int m) ++ rest = c :: (cs ++ rest) := by
      simp [jserAtom, hser]
    rw [hass, parseValCore_num F c (cs ++ rest) h1 h2 h3 h4 h5 h6]
    have hb : c :: (cs ++ rest) = intSer m ++ rest := by simp [hser]
    rw [hb, parseNum_intSer m rest (hg m rfl)]
    rfl

/-! ### Parsing serialized flat documents -/

theorem skipWs_colon (cs : List Char) : skipWs (':' :: cs) = ':' :: cs := rfl

theorem skipWs_comma (cs : List Char) : skipWs (',' :: cs) = ',' :: cs := rfl

theorem skipWs_close (cs : List Char) : skipWs ('}' :: cs) = '}' :: cs := rfl

theorem skipWs_quote (cs : List Char) : skipWs ('"' :: cs) = '"' :: cs := rfl

theorem membersSer_quote (k : List Char) (a : JAtom) (kvs : List (List Char × JAtom)) :
    ∃ tl, membersSer ((k, a) :: kvs) = '"' :: tl := by
  cases kvs with
  | nil => exact ⟨_, rfl⟩
  | cons kv kvs => exact ⟨_, rfl⟩

theorem jserFlat_quote (kvs : List (List Char × JAtom)) :
    ∃ tl, jserFlat kvs = '{' :: tl := by
  cases kvs with
  | nil => exact ⟨_, rfl⟩
  | cons kv kvs => exact ⟨_, rfl⟩

theorem jserAtom_len (a : JAtom) : 1 ≤ (jserAtom a).length := by
  cases a with
  | null => decide
  | bool b => cases b <;> decide
  | str s => simp [jserAtom]
  | int n =>
    simp only [jserAtom, intSer]
    by_cases hneg : n < 0
    · simp [hneg]
    · simp only [if_neg hneg]
      obtain ⟨d, ds, hds⟩ := natDigits_cons n.toNat
      simp [hds.1]

theorem memberSer_len (k : List Char) (a : JAtom) : 4 ≤ (memberSer k a).length := by
  have := jserAtom_len a
  simp only [memberSer, List.length_cons, List.length_append]
  omega

theorem membersSer_len : ∀ k a (kvs : List (List Char × JAtom)),
    kvs.length + 1 ≤ (membersSer ((k, a) :: kvs)).length := by
  intro k a kvs
  induction kvs generalizing k a with
  | nil =>
    have := memberSer_len k a
    simp only [membersSer, List.length_nil]
    omega
  | cons kv kvs ih =>
    obtain ⟨k2, a2⟩ := kv
    have h1 := memberSer_len k a
    have h2 := ih k2 a2
    simp only [membersSer, List.length_append, List.length_cons]
    omega

theorem jserFlat_len (kvs : List (List Char × JAtom)) :
    kvs.length + 2 ≤ (jserFlat kvs).length := by
  cases kvs with
  | nil => decide
  | cons kv kvs =>
    obtain ⟨k2, a2⟩ := kv
    have := membersSer_len k2 a2 kvs
    simp only [jserFlat, List.length_cons, List.length_append, List.length_nil]
    omega

theorem validFlat_cons {k : List Char} {a : JAtom} {kvs : List (List Char × JAtom)}
    (h : validFlat ((k, a) :: kvs) = true) :
    validKey k = true ∧ validAtom a = true ∧ validFlat kvs = true := by
  simp only [validFlat, List.all_cons, Bool.and_eq_true] at h
  exact ⟨h.1.1, h.1.2, h.2⟩

theorem parseMembers_ser : ∀ (kvs : List (List Char × JAtom)) (k : List Char) (a : JAtom)
    (rest : List Char) (F : Nat), validFlat ((k, a) :: kvs) = true →
    (parseMembers F (membersSer ((k, a) :: kvs) ++ '}' :: rest) = none ∨
     parseMembers F (membersSer ((k, a) :: kvs) ++ '}' :: rest) =
       some (((k, a) :: kvs).map (fun kv => (kv.1, atomVal kv.2)), rest)) ∧
    (2 * kvs.length + 3 ≤ F →
     parseMembers F (membersSer ((k, a) :: kvs) ++ '}' :: rest) =
       some (((k, a) :: kvs).map (fun kv => (kv.1, atomVal kv.2)), rest)) := by
  intro kvs
  induction kvs with
  | nil =>
    intro k a rest F hv
    obtain ⟨hk, ha, -⟩ := validFlat_cons hv
    cases F with
    | zero => exact ⟨Or.inl rfl, by intro h; omega⟩
    | succ F =>
      have hshape : membersSer [ (k, a) ] ++ '}' :: rest =
          '"' :: (k ++ '"' :: ':' :: (jserAtom a ++ '}' :: rest)) := by
        simp [membersSer, memberSer]
      rw [hshape]
      have hstr := parseStrChars_valid k (':' :: (jserAtom a ++ '}' :: rest)) hk
      simp only [parseMembers, hstr, skipWs_colon, skipWs_jserAtom]
      cases F with
      | zero =>
        rw [parseValCore_zero]
        exact ⟨Or.inl rfl, by intro h; omega⟩
      | succ F2 =>
        simp only [parseValCore_atom F2 a ('}' :: rest) ha (fun m hm => rfl), skipWs_close]
        exact ⟨Or.inr rfl, fun _ => rfl⟩
  | cons kv2 kvs ih =>
    intro k a rest F hv
    obtain ⟨hk, ha, hv2⟩ := validFlat_cons hv
    obtain ⟨k2, a2⟩ := kv2
    cases F with
    | zero => exact ⟨Or.inl rfl, by intro h; omega⟩
    | succ F =>
      have hshape : membersSer ((k, a) :: (k2, a2) :: kvs) ++ '}' :: rest =
          '"' :: (k ++ '"' :: ':' :: (jserAtom a ++
            ',' :: (membersSer ((k2, a2) :: kvs) ++ '}' :: rest))) := by
        simp [membersSer, memberSer]
      rw [hshape]
      have hstr := parseStrChars_valid k
        (':' :: (jserAtom a ++ ',' :: (membersSer ((k2, a2) :: kvs) ++ '}' :: rest))) hk
      simp only [parseMembers, hstr, skipWs_colon, skipWs_jserAtom]
      cases F with
      | zero =>
        rw [parseValCore_zero]
        exact ⟨Or.inl rfl, by intro h; omega⟩
      | succ F2 =>
        simp only [parseValCore_atom F2 a
          (',' :: (membersSer ((k2, a2) :: kvs) ++ '}' :: rest)) ha (fun m hm => rfl),
          skipWs_comma]
        have hsw : skipWs (membersSer ((k2, a2) :: kvs) ++ '}' :: rest) =
            membersSer ((k2, a2) :: kvs) ++ '}' :: rest := by
          obtain ⟨tl, htl⟩ := membersSer_quote k2 a2 kvs
          rw [htl, List.cons_append]
          exact skipWs_quote _
        obtain ⟨hweak, hstrong⟩ := ih k2 a2 rest (F2 + 1) hv2
        refine ⟨?_, ?_⟩
        · rcases hweak with hw | hw
          · left
            simp [hsw, hw]
          · right
            simp [hsw, hw]
        · intro hF
          have : 2 * kvs.length + 3 ≤ F2 + 1 := by
            simp only [List.length_cons] at hF
            omega
          simp [hsw, hstrong this]

theorem parseValCore_obj (F : Nat) (tl : List Char) :
    parseValCore (F + 1) ('{' :: ('"' :: tl)) =
      match parseMembers F ('"' :: tl) with
      | none => none
      | some (ms, r) => some (JVal.obj ms, r) := rfl

theorem parseValCore_flat : ∀ (F : Nat) (kvs : List (List Char × JAtom)) (rest : List Char),
    validFlat kvs = true →
    (parseValCore F (jserFlat kvs ++ rest) = none ∨
     parseValCore F (jserFlat kvs ++ rest) = some (toJVal kvs, rest)) ∧
    (2 * kvs.length + 4 ≤ F →
     parseValCore F (jserFlat kvs ++ rest) = some (toJVal kvs, rest)) := by
  intro F kvs rest hv
  cases F with
  | zero => exact ⟨Or.inl rfl, by intro h; omega⟩
  | succ F =>
    cases kvs with
    | nil => exact ⟨Or.inr rfl, fun _ => rfl⟩
    | cons kv kvs =>
      obtain ⟨k, a⟩ := kv
      obtain ⟨tl, htl⟩ := membersSer_quote k a kvs
      have hshape : jserFlat ((k, a) :: kvs) ++ rest =
          '{' :: ('"' :: (tl ++ '}' :: rest)) := by
        simp [jserFlat, htl]
      rw [hshape, parseValCore_obj F (tl ++ '}' :: rest)]
      have hmem : ('"' : Char) :: (tl ++ '}' :: rest) =
          membersSer ((k, a) :: kvs) ++ '}' :: rest := by
        rw [htl, List.cons_append]
      rw [hmem]
      obtain ⟨hweak, hstrong⟩ := parseMembers_ser kvs k a rest F hv
      refine ⟨?_, ?_⟩
      · rcases hweak with hw | hw
        · left
          rw [hw]
        · right
          rw [hw]
          rfl
      · intro hF
        have hF2 : 2 * kvs.length + 3 ≤ F := by
          simp only [List.length_cons] at hF
          omega
        rw [hstrong hF2]
        rfl

/-! ### No strict prefix of a serialized document is a complete document -/

theorem jserAtom_head (a : JAtom) : ∃ c tl, jserAtom a = c :: tl ∧ isWsChar c = false := by
  cases a with
  | null => exact ⟨'n', _, rfl, by decide⟩
  | bool b => cases b with
    | true => exact ⟨'t', _, rfl, by decide⟩
    | false => exact ⟨'f', _, rfl, by decide⟩
  | str s => exact ⟨'"', _, rfl, by decide⟩
  | int n =>
    obtain ⟨c, cs, hser, -, -, -, -, -, -, hws⟩ := intSer_head n
    exact ⟨c, cs, by simp [jserAtom, hser], hws⟩

theorem natDigits_part (m : Nat) (s r : List Char) (h : natDigits m = s ++ r) :
    s.all isDigitChar = true := by
  obtain ⟨-, hall, -⟩ := natDigits_spec m
  rw [h, List.all_append, Bool.and_eq_true] at hall
  exact hall.1

theorem key_part (k : List Char) (s r : List Char) (hk : k.all validChar = true)
    (h : k = s ++ r) : s.all validChar = true := by
  rw [h, List.all_append, Bool.and_eq_true] at hk
  exact hk.1

theorem parseValCore_atom_part : ∀ (F : Nat) (a : JAtom) (s r : List Char),
    validAtom a = true → jserAtom a = s ++ r → r ≠ [] →
    parseValCore F s = none ∨ ∃ m, parseValCore F s = some (JVal.int m, []) := by
  intro F a s r hv happ hr
  cases F with
  | zero => exact Or.inl rfl
  | succ F =>
    cases a with
    | null =>
      left
      cases s with
      | nil => exact parseValCore_nil _
      | cons c1 s1 =>
        rw [List.cons_append] at happ
        injection happ with h1 h2
        subst h1
        cases s1 with
        | nil => rfl
        | cons c2 s2 =>
          rw [List.cons_append] at h2
          injection h2 with h1 h2
          subst h1
          cases s2 with
          | nil => rfl
          | cons c3 s3 =>
            rw [List.cons_append] at h2
            injection h2 with h1 h2
            subst h1
            cases s3 with
            | nil => rfl
            | cons c4 s4 =>
              rw [List.cons_append] at h2
              injection h2 with h1 h2
              subst h1
              cases s4 with
              | nil => simp at h2; exact absurd h2 hr
              | cons c5 s5 => simp at h2
    | bool b =>
      left
      cases b with
      | true =>
        cases s with
        | nil => exact parseValCore_nil _
        | cons c1 s1 =>
          rw [List.cons_append] at happ
          injection happ with h1 h2
          subst h1
          cases s1 with
          | nil => rfl
          | cons c2 s2 =>
            rw [List.cons_append] at h2
            injection h2 with h1 h2
            subst h1
            cases s2 with
            | nil => rfl
            | cons c3 s3 =>
              rw [List.cons_append] at h2
              injection h2 with h1 h2
              subst h1
              cases s3 with
              | nil => rfl
              | cons c4 s4 =>
                rw [List.cons_append] at h2
                injection h2 with h1 h2
                subst h1
                cases s4 with
                | nil => simp at h2; exact absurd h2 hr
                | cons c5 s5 => simp at h2
      | false =>
        cases s with
        | nil => exact parseValCore_nil _
        | cons c1 s1 =>
          rw [List.cons_append] at happ
          injection happ with h1 h2
          subst h1
          cases s1 with
          | nil => rfl
          | cons c2 s2 =>
            rw [List.cons_append] at h2
            injection h2 with h1 h2
            subst h1
            cases s2 with
            | nil => rfl
            | cons c3 s3 =>
              rw [List.cons_append] at h2
              injection h2 with h1 h2
              subst h1
              cases s3 with
              | nil => rfl
              | cons c4 s4 =>
                rw [List.cons_append] at h2
                injection h2 with h1 h2
                subst h1
                cases s4 with
                | nil => rfl
                | cons c5 s5 =>
                  rw [List.cons_append] at h2
                  injection h2 with h1 h2
                  subst h1
                  cases s5 with
                  | nil => simp at h2; exact absurd h2 hr
                  | cons c6 s6 => simp at h2
    | str b =>
      left
      simp only [validAtom] at hv
      cases s with
      | nil => exact parseValCore_nil _
      | cons c1 s1 =>
        simp only [jserAtom, List.cons_append] at happ
        injection happ with h1 h2
        subst h1
        rw [parseValCore_quote]
        rcases List.append_eq_append_iff.mp h2.symm with ⟨a2, ha2, -⟩ | ⟨c2, hc2, hr2⟩
        · rw [parseStrChars_valid_none s1 (key_part b s1 a2 hv ha2)]
        · cases c2 with
          | nil =>
            simp only [List.append_nil] at hc2
            rw [hc2, parseStrChars_valid_none b hv]
          | cons c3 s3 =>
            rw [List.cons_append] at hr2
            injection hr2 with h3 h4
            subst h3
            cases s3 with
            | nil => exact absurd h4.symm hr
            | cons c4 s4 => simp at h4
    | int m =>
      by_cases hneg : m < 0
      · cases s with
        | nil => exact Or.inl (parseValCore_nil _)
        | cons c1 s1 =>
          simp only [jserAtom, intSer, if_pos hneg, List.cons_append] at happ
          injection happ with h1 h2
          subst h1
          cases s1 with
          | nil => exact Or.inl rfl
          | cons c2 s2 =>
            right
            have hdig := natDigits_part (-m).toNat (c2 :: s2) r h2
            simp only [List.all_cons, Bool.and_eq_true] at hdig
            have hp := digit_props hdig.1
            refine ⟨-(s2.foldl (fun acc c => acc * 10 + digitVal c) (digitVal c2) : Nat), ?_⟩
            rw [parseValCore_num F '-' (c2 :: s2) (by decide) (by decide) (by decide)
              (by decide) (by decide) (by decide)]
            have hrun : parseDigitsAux (digitVal c2) (s2 ++ []) =
                (s2.foldl (fun acc c => acc * 10 + digitVal c) (digitVal c2), []) :=
              parseDigitsAux_run s2 (digitVal c2) [] hdig.2 rfl
            simp only [List.append_nil] at hrun
            simp only [parseNum, if_pos rfl, hdig.1, if_true, hrun]
      · cases s with
        | nil => exact Or.inl (parseValCore_nil _)
        | cons c1 s1 =>
          simp only [jserAtom, intSer, if_neg hneg] at happ
          have hdig := natDigits_part m.toNat (c1 :: s1) r happ
          simp only [List.all_cons, Bool.and_eq_true] at hdig
          have hp := digit_props hdig.1
          right
          refine ⟨(s1.foldl (fun acc c => acc * 10 + digitVal c) (digitVal c1) : Nat), ?_⟩
          rw [parseValCore_num F c1 s1 hp.1 hp.2.1 hp.2.2.1 hp.2.2.2.1 hp.2.2.2.2.1
            hp.2.2.2.2.2.1]
          have hrun : parseDigitsAux (digitVal c1) (s1 ++ []) =
              (s1.foldl (fun acc c => acc * 10 + digitVal c) (digitVal c1), []) :=
            parseDigitsAux_run s1 (digitVal c1) [] hdig.2 rfl
          simp only [List.append_nil] at hrun
          simp only [parseNum, if_neg hp.2.2.2.2.2.2.1, hdig.1, if_true, hrun]

theorem parseMembers_part : ∀ (kvs : List (List Char × JAtom)) (k : List Char) (a : JAtom)
    (s r : List Char) (F : Nat), validFlat ((k, a) :: kvs) = true →
    membersSer ((k, a) :: kvs) ++ [ '}' ] = s ++ r → r ≠ [] →
    parseMembers F s = none := by
  intro kvs
  induction kvs with
  | nil =>
    intro k a s r F hv happ hr
    obtain ⟨hk, ha, hvt⟩ := validFlat_cons hv
    cases F with
    | zero => rfl
    | succ F =>
      cases s with
      | nil => rfl
      | cons c1 s1 =>
        have hshape : membersSer [ (k, a) ] ++ [ '}' ] =
            '"' :: (k ++ '"' :: ':' :: (jserAtom a ++ [ '}' ])) := by
          simp [membersSer, memberSer]
        rw [hshape, List.cons_append] at happ
        injection happ with h1 h2
        subst h1
        rcases List.append_eq_append_iff.mp h2 with ⟨a1, ha1, hb1⟩ | ⟨c1', hc1, hr1⟩
        · cases a1 with
          | nil =>
            rw [List.append_nil] at ha1
            rw [ha1]
            simp only [parseMembers, parseStrChars_valid_none k hk]
          | cons c2 s2 =>
            rw [List.cons_append] at hb1
            injection hb1 with h3 h4
            subst h3
            subst ha1
            cases s2 with
            | nil =>
              simp only [parseMembers, parseStrChars_valid k [] hk]
              rfl
            | cons c3 s3 =>
              rw [List.cons_append] at h4
              injection h4 with h5 h6
              subst h5
              simp only [parseMembers, parseStrChars_valid k (':' :: s3) hk, skipWs_colon]
              rcases List.append_eq_append_iff.mp h6 with ⟨w2, hw2, hb2⟩ | ⟨c4, hc4, hr4⟩
              · -- s3 = jserAtom a ++ w2 and ['}'] = w2 ++ r
                have hw2nil : w2 = [] := by
                  cases w2 with
                  | nil => rfl
                  | cons c5 s5 =>
                    rw [List.cons_append] at hb2
                    injection hb2 with h7 h8
                    have h9 := List.append_eq_nil.mp h8.symm
                    exact absurd h9.2 hr
                subst hw2nil
                rw [List.append_nil] at hw2
                subst hw2
                have hsw3 : skipWs (jserAtom a) = jserAtom a := by
                  have := skipWs_jserAtom a []
                  simpa using this
                rw [hsw3]
                cases F with
                | zero => rw [parseValCore_zero]
                | succ F2 =>
                  have hatom : parseValCore (F2 + 1) (jserAtom a) = some (atomVal a, []) := by
                    have := parseValCore_atom F2 a [] ha (fun m hm => rfl)
                    simpa using this
                  rw [hatom]
                  rfl
              · -- jserAtom a = s3 ++ c4 and r = c4 ++ ['}']
                have hc4ne : c4 ≠ [] ∨ c4 = [] := by tauto
                have hsw3 : skipWs s3 = s3 := by
                  cases s3 with
                  | nil => rfl
                  | cons c5 s5 =>
                    obtain ⟨ch, ctl, hch, hcw⟩ := jserAtom_head a
                    rw [hch, List.cons_append] at hc4
                    injection hc4 with h7 h8
                    rw [← h7]
                    exact skipWs_cons_not _ hcw
                rw [hsw3]
                rcases hc4ne with hne | hnil
                · rcases parseValCore_atom_part F a s3 c4 ha hc4 hne with hnone | ⟨mm, hint⟩
                  · rw [hnone]
                  · rw [hint]
                    rfl
                · subst hnil
                  rw [List.append_nil] at hc4
                  subst hc4
                  cases F with
                  | zero => rw [parseValCore_zero]
                  | succ F2 =>
                    have hatom : parseValCore (F2 + 1) (jserAtom a) = some (atomVal a, []) := by
                      have := parseValCore_atom F2 a [] ha (fun m hm => rfl)
                      simpa using this
                    rw [hatom]
                    rfl
        · -- k = s1 ++ c1' and r = c1' ++ (…)
          have hval1 : s1.all validChar = true := key_part k s1 c1' hk hc1
          simp only [parseMembers, parseStrChars_valid_none s1 hval1]
  | cons kv2 kvs2 ih =>
    intro k a s r F hv happ hr
    obtain ⟨hk, ha, hvt⟩ := validFlat_cons hv
    obtain ⟨k2, a2⟩ := kv2
    cases F with
    | zero => rfl
    | succ F =>
      cases s with
      | nil => rfl
      | cons c1 s1 =>
        have hshape : membersSer ((k, a) :: (k2, a2) :: kvs2) ++ [ '}' ] =
            '"' :: (k ++ '"' :: ':' :: (jserAtom a ++
              ',' :: (membersSer ((k2, a2) :: kvs2) ++ [ '}' ]))) := by
          simp [membersSer, memberSer]
        rw [hshape, List.cons_append] at happ
        injection happ with h1 h2
        subst h1
        rcases List.append_eq_append_iff.mp h2 with ⟨a1, ha1, hb1⟩ | ⟨c1', hc1, hr1⟩
        · cases a1 with
          | nil =>
            rw [List.append_nil] at ha1
            rw [ha1]
            simp only [parseMembers, parseStrChars_valid_none k hk]
          | cons c2 s2 =>
            rw [List.cons_append] at hb1
            injection hb1 with h3 h4
            subst h3
            subst ha1
            cases s2 with
            | nil =>
              simp only [parseMembers, parseStrChars_valid k [] hk]
              rfl
            | cons c3 s3 =>
              rw [List.cons_append] at h4
              injection h4 with h5 h6
              subst h5
              simp only [parseMembers, parseStrChars_valid k (':' :: s3) hk, skipWs_colon]
              rcases List.append_eq_append_iff.mp h6 with ⟨w2, hw2, hb2⟩ | ⟨c4, hc4, hr4⟩
              · -- s3 = jserAtom a ++ w2 ; ',' :: (membersSer ((k2,a2)::kvs2) ++ ['}']) = w2 ++ r
                subst hw2
                have hsw3 : skipWs (jserAtom a ++ w2) = jserAtom a ++ w2 := skipWs_jserAtom a w2
                rw [hsw3]
                cases w2 with
                | nil =>
                  cases F with
                  | zero => rw [parseValCore_zero]
                  | succ F2 =>
                    have hatom : parseValCore (F2 + 1) (jserAtom a ++ []) =
                        some (atomVal a, []) := parseValCore_atom F2 a [] ha (fun m hm => rfl)
                    rw [hatom]
                    rfl
                | cons c5 s5 =>
                  rw [List.cons_append] at hb2
                  injection hb2 with h7 h8
                  subst h7
                  cases F with
                  | zero => rw [parseValCore_zero]
                  | succ F2 =>
                    have hatom : parseValCore (F2 + 1) (jserAtom a ++ ',' :: s5) =
                        some (atomVal a, ',' :: s5) :=
                      parseValCore_atom F2 a (',' :: s5) ha (fun m hm => rfl)
                    simp only [hatom, skipWs_comma]
                    have hsw5 : skipWs s5 = s5 := by
                      cases s5 with
                      | nil => rfl
                      | cons c6 s6 =>
                        obtain ⟨tl2, htl2⟩ := membersSer_quote k2 a2 kvs2
                        rw [htl2, List.cons_append, List.cons_append] at h8
                        injection h8 with h9 h10
                        rw [← h9]
                        exact skipWs_quote _
                    rw [hsw5]
                    rw [ih k2 a2 s5 r (F2 + 1) hvt h8 hr]
              · -- jserAtom a = s3 ++ c4 ; r = c4 ++ (',' :: …)
                have hsw3 : skipWs s3 = s3 := by
                  cases s3 with
                  | nil => rfl
                  | cons c5 s5 =>
                    obtain ⟨ch, ctl, hch, hcw⟩ := jserAtom_head a
                    rw [hch, List.cons_append] at hc4
                    injection hc4 with h7 h8
                    rw [← h7]
                    exact skipWs_cons_not _ hcw
                rw [hsw3]
                by_cases hnil : c4 = []
                · subst hnil
                  rw [List.append_nil] at hc4
                  subst hc4
                  cases F with
                  | zero => rw [parseValCore_zero]
                  | succ F2 =>
                    have hatom : parseValCore (F2 + 1) (jserAtom a) = some (atomVal a, []) := by
                      have := parseValCore_atom F2 a [] ha (fun m hm => rfl)
                      simpa using this
                    rw [hatom]
                    rfl
                · rcases parseValCore_atom_part F a s3 c4 ha hc4 hnil with hnone | ⟨mm, hint⟩
                  · rw [hnone]
                  · rw [hint]
                    rfl
        · have hval1 : s1.all validChar = true := key_part k s1 c1' hk hc1
          simp only [parseMembers, parseStrChars_valid_none s1 hval1]

/-! ### parseDoc on wire documents -/

theorem parseValCore_lb (F : Nat) :
    parseValCore (F + 1) [ '{' ] =
      match parseMembers F [] with
      | none => none
      | some (ms, r) => some (JVal.obj ms, r) := rfl

theorem parseValCore_flat_part : ∀ (F : Nat) (kvs : List (List Char × JAtom))
    (s r : List Char), validFlat kvs = true →
    jserFlat kvs = s ++ r → r ≠ [] → parseValCore F s = none := by
  intro F kvs s r hv happ hr
  cases F with
  | zero => rfl
  | succ F =>
    cases kvs with
    | nil =>
      cases s with
      | nil => exact parseValCore_nil _
      | cons c1 s1 =>
        rw [show jserFlat [] = '{' :: [ '}' ] from rfl, List.cons_append] at happ
        injection happ with h1 h2
        subst h1
        cases s1 with
        | nil =>
          rw [parseValCore_lb, parseMembers_nil]
        | cons c2 s2 =>
          rw [List.cons_append] at h2
          injection h2 with h3 h4
          subst h3
          cases s2 with
          | nil => simp at h4; exact absurd h4 hr
          | cons c3 s3 => simp at h4
    | cons kv kvs2 =>
      obtain ⟨k, a⟩ := kv
      obtain ⟨tl, htl⟩ := membersSer_quote k a kvs2
      have hshape : jserFlat ((k, a) :: kvs2) =
          '{' :: (membersSer ((k, a) :: kvs2) ++ [ '}' ]) := by
        simp [jserFlat]
      rw [hshape] at happ
      cases s with
      | nil => exact parseValCore_nil _
      | cons c1 s1 =>
        rw [List.cons_append] at happ
        injection happ with h1 h2
        subst h1
        cases s1 with
        | nil =>
          rw [parseValCore_lb, parseMembers_nil]
        | cons c2 s2 =>
          have hq : c2 = '"' := by
            rw [htl, List.cons_append, List.cons_append] at h2
            injection h2 with h3 h4
            exact h3.symm
          subst hq
          rw [parseValCore_obj F s2]
          rw [parseMembers_part kvs2 k a ('"' :: s2) r F hv h2 hr]

theorem wsOnly_skipWs (w : List Char) (h : w.all isWsChar = true) : skipWs w = [] := by
  have := skipWs_ws_append w [] h
  simpa using this

theorem parseDoc_skipWs_nil (s : List Char) (h : skipWs s = []) : parseDoc s = none := by
  simp only [parseDoc, h, parseValCore_nil]

theorem parseDoc_flat (W : List Char) (kvs : List (List Char × JAtom)) (X : List Char)
    (hW : W.all isWsChar = true) (hv : validFlat kvs = true) :
    parseDoc (W ++ (jserFlat kvs ++ X)) = some (toJVal kvs, (W ++ jserFlat kvs).length) := by
  have hsw : skipWs (W ++ (jserFlat kvs ++ X)) = jserFlat kvs ++ X := by
    rw [skipWs_ws_append _ _ hW]
    obtain ⟨tl, htl⟩ := jserFlat_quote kvs
    rw [htl, List.cons_append]
    exact skipWs_cons_not _ (by decide)
  have hlen := jserFlat_len kvs
  have hfuel : 2 * kvs.length + 4 ≤ 2 * (W ++ (jserFlat kvs ++ X)).length + 2 := by
    simp only [List.length_append]
    omega
  have hstrong := (parseValCore_flat (2 * (W ++ (jserFlat kvs ++ X)).length + 2) kvs X hv).2 hfuel
  simp only [parseDoc, hsw, hstrong]
  have hX : (W ++ (jserFlat kvs ++ X)).length - X.length = (W ++ jserFlat kvs).length := by
    simp only [List.length_append]
    omega
  rw [hX]

theorem parseDoc_take_none (W : List Char) (kvs : List (List Char × JAtom)) (T : List Char)
    (hW : W.all isWsChar = true) (hv : validFlat kvs = true) :
    ∀ j, j < (W ++ jserFlat kvs).length →
      parseDoc ((W ++ (jserFlat kvs ++ T)).take j) = none := by
  intro j hj
  rw [List.take_append_eq_append_take]
  by_cases hcmp : j ≤ W.length
  · have h0 : j - W.length = 0 := by omega
    rw [h0]
    simp only [List.take_zero, List.append_nil]
    apply parseDoc_skipWs_nil
    apply wsOnly_skipWs
    rw [List.all_eq_true] at hW ⊢
    intro c hc
    exact hW c (List.take_subset j W hc)
  · have hWfull : W.take j = W := List.take_of_length_le (by omega)
    rw [hWfull]
    rw [List.take_append_eq_append_take]
    have hjD : j - W.length < (jserFlat kvs).length := by
      simp only [List.length_append] at hj
      omega
    have h0 : j - W.length - (jserFlat kvs).length = 0 := by omega
    rw [h0]
    simp only [List.take_zero, List.append_nil]
    have hsplit : jserFlat kvs =
        (jserFlat kvs).take (j - W.length) ++ (jserFlat kvs).drop (j - W.length) :=
      (List.take_append_drop _ _).symm
    have hdropne : (jserFlat kvs).drop (j - W.length) ≠ [] := by
      intro hd
      rw [List.drop_eq_nil_iff] at hd
      omega
    have hnone := parseValCore_flat_part
      (2 * ((W ++ (jserFlat kvs).take (j - W.length)).length) + 2)
      kvs ((jserFlat kvs).take (j - W.length)) ((jserFlat kvs).drop (j - W.length))
      hv hsplit hdropne
    have hsw : skipWs (W ++ (jserFlat kvs).take (j - W.length)) =
        (jserFlat kvs).take (j - W.length) := by
      rw [skipWs_ws_append _ _ hW]
      obtain ⟨tl, htl⟩ := jserFlat_quote kvs
      rw [htl]
      have hpos : 0 < j - W.length := by omega
      obtain ⟨i, hi⟩ := Nat.exists_eq_succ_of_ne_zero (by omega : j - W.length ≠ 0)
      rw [hi, List.take_succ_cons]
      exact skipWs_cons_not _ (by decide)
    simp only [parseDoc, hsw, hnone]

/-! ### The read loop -/

theorem joinEv_cons (ev : ReadEv) (evs : List ReadEv) :
    joinEv (ev :: evs) = evData ev ++ joinEv evs := by
  simp [joinEv]

theorem chunksOnly_cons {ev : ReadEv} {evs : List ReadEv}
    (h : chunksOnly (ev :: evs) = true) :
    (∃ d, ev = ReadEv.chunk d ∧ d ≠ []) ∧ chunksOnly evs = true := by
  simp only [chunksOnly, List.all_cons, Bool.and_eq_true] at h
  refine ⟨?_, h.2⟩
  cases ev with
  | chunk d =>
    refine ⟨d, rfl, ?_⟩
    have := h.1
    simp only [chunkOk, decide_eq_true_eq] at this
    exact this
  | closed => exact absurd h.1 (by decide)
  | errTimeout => exact absurd h.1 (by decide)
  | errOther => exact absurd h.1 (by decide)

theorem joinEv_eq_nil {evs : List ReadEv} (hc : chunksOnly evs = true)
    (h : joinEv evs = []) : evs = [] := by
  cases evs with
  | nil => rfl
  | cons ev evs2 =>
    obtain ⟨⟨d, hev, hdne⟩, -⟩ := chunksOnly_cons hc
    subst hev
    rw [joinEv_cons] at h
    simp only [evData, List.append_eq_nil] at h
    exact absurd h.1 hdne

theorem readLoop_doc : ∀ (fuel : Nat) (buf : List Char) (evs : List ReadEv)
    (P T : List Char) (v : JVal),
    (∀ X, parseDoc (P ++ X) = some (v, P.length)) →
    (∀ j, j < P.length → parseDoc ((P ++ T).take j) = none) →
    buf ++ joinEv evs = P ++ T →
    chunksOnly evs = true →
    buf.length ≤ READ_BUFFER_SIZE →
    P.length ≤ READ_BUFFER_SIZE →
    0 < P.length →
    READ_BUFFER_SIZE + 2 ≤ fuel + buf.length →
    ∃ pre evs2, readLoop fuel buf evs = LoopRes.parsed v P.length (P ++ pre) evs2 ∧
      pre ++ joinEv evs2 = T ∧ chunksOnly evs2 = true ∧
      (P ++ pre).length ≤ READ_BUFFER_SIZE := by
  intro fuel
  induction fuel with
  | zero =>
    intro buf evs P T v hparse hpnone hstream hchunks hbuf hP hPpos hfuel
    have hcap : (8192 : Nat) ≤ READ_BUFFER_SIZE := by rw [READ_BUFFER_SIZE]
    omega
  | succ fuel ih =>
    intro buf evs P T v hparse hpnone hstream hchunks hbuf hP hPpos hfuel
    have hbufeq : buf = (P ++ T).take buf.length := by
      calc buf = (buf ++ joinEv evs).take buf.length := (List.take_left buf _).symm
      _ = (P ++ T).take buf.length := by rw [hstream]
    by_cases hlong : P.length ≤ buf.length
    · have hbufP : buf = P ++ T.take (buf.length - P.length) := by
        conv_lhs => rw [hbufeq]
        rw [List.take_append_eq_append_take, List.take_of_length_le hlong]
      have hpd : parseDoc buf = some (v, P.length) := by
        rw [hbufP]
        exact hparse _
      refine ⟨T.take (buf.length - P.length), evs, ?_, ?_, hchunks, ?_⟩
      · have hpos : 0 < buf.length := by omega
        have hrl : readLoop (fuel + 1) buf evs = LoopRes.parsed v P.length buf evs := by
          simp only [readLoop, if_pos hpos, hpd]
        rw [hrl]
        exact congrArg (fun b => LoopRes.parsed v P.length b evs) hbufP
      · have h1 : P ++ (T.take (buf.length - P.length) ++ joinEv evs) = P ++ T := by
          rw [← List.append_assoc, ← hbufP]
          exact hstream
        exact List.append_cancel_left h1
      · rw [← hbufP]
        exact hbuf
    · push_neg at hlong
      have hpd : parseDoc buf = none := by
        rw [hbufeq]
        exact hpnone buf.length hlong
      have hparse_step : (if 0 < buf.length then parseDoc buf else none) = none := by
        by_cases h0 : 0 < buf.length
        · rw [if_pos h0, hpd]
        · rw [if_neg h0]
      have hnoovf : ¬ (READ_BUFFER_SIZE ≤ buf.length) := by omega
      cases evs with
      | nil =>
        exfalso
        rw [show joinEv [] = [] from rfl, List.append_nil] at hstream
        have : buf.length = (P ++ T).length := by rw [hstream]
        simp only [List.length_append] at this
        omega
      | cons ev evs2 =>
        obtain ⟨⟨d, hev, hdne⟩, hch2⟩ := chunksOnly_cons hchunks
        subst hev
        have hdpos : 0 < d.length := List.length_pos.mpr hdne
        have hdel : ¬ ((d.take (READ_BUFFER_SIZE - buf.length)).length = 0) := by
          simp only [List.length_take]
          omega
        have hstep : readLoop (fuel + 1) buf (ReadEv.chunk d :: evs2) =
            readLoop fuel (buf ++ d.take (READ_BUFFER_SIZE - buf.length))
              (if (d.drop (READ_BUFFER_SIZE - buf.length)).isEmpty then evs2
               else ReadEv.chunk (d.drop (READ_BUFFER_SIZE - buf.length)) :: evs2) := by
          simp only [readLoop, hparse_step, if_neg hnoovf, if_neg hdel]
        rw [hstep]
        have hjoin2 : joinEv
            (if (d.drop (READ_BUFFER_SIZE - buf.length)).isEmpty then evs2
             else ReadEv.chunk (d.drop (READ_BUFFER_SIZE - buf.length)) :: evs2) =
            d.drop (READ_BUFFER_SIZE - buf.length) ++ joinEv evs2 := by
          by_cases hemp : (d.drop (READ_BUFFER_SIZE - buf.length)).isEmpty
          · rw [if_pos hemp]
            rw [List.isEmpty_iff] at hemp
            rw [hemp, List.nil_append]
          · rw [if_neg hemp, joinEv_cons]
            rfl
        have hch3 : chunksOnly
            (if (d.drop (READ_BUFFER_SIZE - buf.length)).isEmpty then evs2
             else ReadEv.chunk (d.drop (READ_BUFFER_SIZE - buf.length)) :: evs2) = true := by
          by_cases hemp : (d.drop (READ_BUFFER_SIZE - buf.length)).isEmpty
          · rw [if_pos hemp]
            exact hch2
          · rw [if_neg hemp]
            simp only [chunksOnly, List.all_cons, Bool.and_eq_true]
            refine ⟨?_, hch2⟩
            simp only [chunkOk, decide_eq_true_eq]
            rw [List.isEmpty_iff] at hemp
            exact hemp
        apply ih
        · exact hparse
        · exact hpnone
        · rw [hjoin2, List.append_assoc,
            ← List.append_assoc (d.take (READ_BUFFER_SIZE - buf.length)),
            List.take_append_drop]
          rw [joinEv_cons] at hstream
          simpa [evData, List.append_assoc] using hstream
        · exact hch3
        · simp only [List.length_append, List.length_take]
          omega
        · exact hP
        · exact hPpos
        · simp only [List.length_append, List.length_take]
          omega

theorem readLoop_ovf : ∀ (fuel : Nat) (buf : List Char) (evs : List ReadEv) (S : List Char),
    buf ++ joinEv evs = S → chunksOnly evs = true →
    (∀ j, j ≤ READ_BUFFER_SIZE → parseDoc (S.take j) = none) →
    buf.length ≤ READ_BUFFER_SIZE → READ_BUFFER_SIZE ≤ S.length →
    READ_BUFFER_SIZE + 2 ≤ fuel + buf.length →
    ∃ evs2, readLoop fuel buf evs = LoopRes.overflow evs2 := by
  intro fuel
  induction fuel with
  | zero =>
    intro buf evs S hstream hchunks hp hbuf hS hfuel
    have hcap : (8192 : Nat) ≤ READ_BUFFER_SIZE := by rw [READ_BUFFER_SIZE]
    omega
  | succ fuel ih =>
    intro buf evs S hstream hchunks hp hbuf hS hfuel
    have hbufeq : buf = S.take buf.length := by
      calc buf = (buf ++ joinEv evs).take buf.length := (List.take_left buf _).symm
      _ = S.take buf.length := by rw [hstream]
    have hpd : parseDoc buf = none := by
      rw [hbufeq]
      exact hp buf.length hbuf
    have hparse_step : (if 0 < buf.length then parseDoc buf else none) = none := by
      by_cases h0 : 0 < buf.length
      · rw [if_pos h0, hpd]
      · rw [if_neg h0]
    by_cases hfull : READ_BUFFER_SIZE ≤ buf.length
    · refine ⟨evs, ?_⟩
      simp only [readLoop, hparse_step, if_pos hfull]
    · cases evs with
      | nil =>
        exfalso
        rw [show joinEv [] = [] from rfl, List.append_nil] at hstream
        have : buf.length = S.length := by rw [hstream]
        omega
      | cons ev evs2 =>
        obtain ⟨⟨d, hev, hdne⟩, hch2⟩ := chunksOnly_cons hchunks
        subst hev
        have hdpos : 0 < d.length := List.length_pos.mpr hdne
        have hdel : ¬ ((d.take (READ_BUFFER_SIZE - buf.length)).length = 0) := by
          simp only [List.length_take]
          omega
        have hstep : readLoop (fuel + 1) buf (ReadEv.chunk d :: evs2) =
            readLoop fuel (buf ++ d.take (READ_BUFFER_SIZE - buf.length))
              (if (d.drop (READ_BUFFER_SIZE - buf.length)).isEmpty then evs2
               else ReadEv.chunk (d.drop (READ_BUFFER_SIZE - buf.length)) :: evs2) := by
          simp only [readLoop, hparse_step, if_neg hfull, if_neg hdel]
        rw [hstep]
        have hjoin2 : joinEv
            (if (d.drop (READ_BUFFER_SIZE - buf.length)).isEmpty then evs2
             else ReadEv.chunk (d.drop (READ_BUFFER_SIZE - buf.length)) :: evs2) =
            d.drop (READ_BUFFER_SIZE - buf.length) ++ joinEv evs2 := by
          by_cases hemp : (d.drop (READ_BUFFER_SIZE - buf.length)).isEmpty
          · rw [if_pos hemp]
            rw [List.isEmpty_iff] at hemp
            rw [hemp, List.nil_append]
          · rw [if_neg hemp, joinEv_cons]
            rfl
        have hch3 : chunksOnly
            (if (d.drop (READ_BUFFER_SIZE - buf.length)).isEmpty then evs2
             else ReadEv.chunk (d.drop (READ_BUFFER_SIZE - buf.length)) :: evs2) = true := by
          by_cases hemp : (d.drop (READ_BUFFER_SIZE - buf.length)).isEmpty
          · rw [if_pos hemp]
            exact hch2
          · rw [if_neg hemp]
            simp only [chunksOnly, List.all_cons, Bool.and_eq_true]
            refine ⟨?_, hch2⟩
            simp only [chunkOk, decide_eq_true_eq]
            rw [List.isEmpty_iff] at hemp
            exact hemp
        refine ih (buf ++ d.take (READ_BUFFER_SIZE - buf.length)) _ S ?_ hch3 hp ?_ hS ?_
        · rw [hjoin2, List.append_assoc,
            ← List.append_assoc (d.take (READ_BUFFER_SIZE - buf.length)),
            List.take_append_drop]
          rw [joinEv_cons] at hstream
          simpa [evData, List.append_assoc] using hstream
        · simp only [List.length_append, List.length_take]
          omega
        · simp only [List.length_append, List.length_take]
          omega

theorem readLoop_parsed_len : ∀ (fuel : Nat) (buf : List Char) (evs : List ReadEv)
    (v : JVal) (c : Nat) (b : List Char) (e2 : List ReadEv),
    readLoop fuel buf evs = LoopRes.parsed v c b e2 →
    buf.length ≤ READ_BUFFER_SIZE → b.length ≤ READ_BUFFER_SIZE := by
  intro fuel
  induction fuel with
  | zero =>
    intro buf evs v c b e2 h hbuf
    simp [readLoop] at h
  | succ fuel ih =>
    intro buf evs v c b e2 h hbuf
    simp only [readLoop] at h
    split at h
    · cases h
      exact hbuf
    · split at h
      · simp at h
      · rename_i hnofull
        split at h
        · simp at h
        · simp at h
        · simp at h
        · simp at h
        · rename_i d rest
          split at h
          · simp at h
          · apply ih _ _ _ _ _ _ h
            simp only [List.length_append, List.length_take]
            omega

/-! ### One executed exchange over the wire -/

theorem exec_doc (st : aerospace) (a : List String) (payload : Option String)
    (field : Option (List Char)) (evs : List ReadEv) (W : List Char)
    (kvs : List (List Char × JAtom)) (T : List Char)
    (hfd : st.fd = some ()) (ha : a ≠ [])
    (hW : W.all isWsChar = true) (hv : validFlat kvs = true)
    (hstream : st.read_buf ++ joinEv evs = (W ++ jserFlat kvs) ++ T)
    (hchunks : chunksOnly evs = true)
    (hbuf : st.read_buf.length ≤ READ_BUFFER_SIZE)
    (hsize : (W ++ jserFlat kvs).length ≤ READ_BUFFER_SIZE) :
    ∃ pre evs2,
      execute_aerospace_command (some st) (some a) payload field true evs =
        (outcomeOf kvs field,
         some { st with
                command_count := (st.command_count + 1) % UINT32_MOD
                read_buf := pre },
         evs2) ∧
      pre ++ joinEv evs2 = T ∧ chunksOnly evs2 = true ∧
      pre.length ≤ READ_BUFFER_SIZE := by
  have hparse : ∀ X, parseDoc ((W ++ jserFlat kvs) ++ X) =
      some (toJVal kvs, (W ++ jserFlat kvs).length) := by
    intro X
    rw [List.append_assoc]
    exact parseDoc_flat W kvs X hW hv
  have hpnone : ∀ j, j < (W ++ jserFlat kvs).length →
      parseDoc (((W ++ jserFlat kvs) ++ T).take j) = none := by
    intro j hj
    rw [List.append_assoc]
    exact parseDoc_take_none W kvs T hW hv j hj
  have hPpos : 0 < (W ++ jserFlat kvs).length := by
    have := jserFlat_len kvs
    simp only [List.length_append]
    omega
  obtain ⟨pre, evs2, hrl, hpre, hch2, hlen⟩ :=
    readLoop_doc (READ_BUFFER_SIZE + 2) st.read_buf evs (W ++ jserFlat kvs) T
      (toJVal kvs) hparse hpnone hstream hchunks hbuf hsize hPpos (by omega)
  refine ⟨pre, evs2, ?_, hpre, hch2, ?_⟩
  · have ha0 : ¬ (a.length = 0) := fun h => ha (List.length_eq_zero.mp h)
    have hfd0 : ¬ (st.fd.isNone = true) := by rw [hfd]; simp
    simp only [execute_aerospace_command, if_neg ha0, if_neg hfd0,
      if_neg (by simp : ¬ ((true : Bool) = false))]
    have hbufsame :
        ({ st with command_count := (st.command_count + 1) % UINT32_MOD } :
          aerospace).read_buf = st.read_buf := rfl
    rw [hbufsame]
    simp only [hrl]
    have hdrop : ((W ++ jserFlat kvs) ++ pre).drop (W ++ jserFlat kvs).length = pre :=
      List.drop_left _ _
    rw [hdrop]
    rcases hres : responseResult (toJVal kvs) field with _ | r
    · simp only [outcomeOf, hres]
    · simp only [outcomeOf, hres]
  · have : (W ++ jserFlat kvs).length + pre.length ≤ READ_BUFFER_SIZE := by
      rw [← List.length_append]
      exact hlen
    omega

/-! ### Claim theorems -/

/-- Claim C2: after a document is parsed, the executor discards exactly the
consumed bytes, keeping the leftover for the next call; hence for any sequence
of wire documents (each an optional whitespace separator followed by a valid
single-level JSON object that fits in the buffer), delivered in arbitrarily
chosen nonempty chunks, N calls of `execute_aerospace_command` extract exactly
the N documents — each call returns the extraction outcome of its document —
and at the end the buffer is empty and the stream fully consumed, with zero
leaked or duplicated bytes. -/
theorem C2_framing_roundtrip :
    ∀ (docs : List (List Char × List (List Char × JAtom))) (st : aerospace)
      (a : List String) (payload : Option String) (field : Option (List Char))
      (evs : List ReadEv),
    st.fd = some () → a ≠ [] → docs.all docOk = true → chunksOnly evs = true →
    st.read_buf ++ joinEv evs = docsStream docs →
    st.read_buf.length ≤ READ_BUFFER_SIZE →
    ∃ st2, runCalls docs.length (some st) (some a) payload field evs =
      (docs.map (fun d => outcomeOf d.2 field), some st2, []) ∧
      st2.read_buf = [] ∧ st2.fd = some () := by
  intro docs
  induction docs with
  | nil =>
    intro st a payload field evs hfd ha hdocs hchunks hstream hbuf
    have hstream2 : st.read_buf ++ joinEv evs = [] := hstream
    have hb := List.append_eq_nil.mp hstream2
    have hevs : evs = [] := joinEv_eq_nil hchunks hb.2
    subst hevs
    exact ⟨st, by simp [runCalls, hb.1], hb.1, hfd⟩
  | cons d docs ih =>
    intro st a payload field evs hfd ha hdocs hchunks hstream hbuf
    obtain ⟨W, kvs⟩ := d
    rw [List.all_cons, Bool.and_eq_true] at hdocs
    have hdoc1 := hdocs.1
    simp only [docOk, Bool.and_eq_true, decide_eq_true_eq] at hdoc1
    have hW : W.all isWsChar = true := hdoc1.1.1
    have hv : validFlat kvs = true := hdoc1.1.2
    have hsize : (W ++ jserFlat kvs).length ≤ READ_BUFFER_SIZE := hdoc1.2
    have hstream2 : st.read_buf ++ joinEv evs =
        (W ++ jserFlat kvs) ++ docsStream docs := by
      rw [hstream]
      simp [docsStream, docBytes]
    obtain ⟨pre, evs2, hexec, hpre, hch2, hprelen⟩ :=
      exec_doc st a payload field evs W kvs (docsStream docs) hfd ha hW hv
        hstream2 hchunks hbuf hsize
    obtain ⟨st2, hrun, hb2, hfd2⟩ := ih
      { st with command_count := (st.command_count + 1) % UINT32_MOD, read_buf := pre }
      a payload field evs2 hfd ha hdocs.2 hch2 hpre hprelen
    refine ⟨st2, ?_, hb2, hfd2⟩
    have hlen : ((W, kvs) :: docs).length = docs.length + 1 := rfl
    rw [hlen]
    simp only [runCalls, hexec, hrun, List.map_cons]

/-- Witness for C2: two pipelined response documents (a success envelope and
an error envelope, separated by a newline) delivered in two chunks split in
the middle of the first document are extracted by two consecutive calls. -/
theorem C2_framing_roundtrip_witness :
    (wclient.fd = some () ∧ ([ ("x") ] : List String) ≠ [] ∧
      wdocs.all docOk = true ∧ chunksOnly wevs = true ∧
      wclient.read_buf ++ joinEv wevs = docsStream wdocs ∧
      wclient.read_buf.length ≤ READ_BUFFER_SIZE) ∧
    ∃ st2, runCalls wdocs.length (some wclient) (some [ ("x") ]) none
        (some stdoutKey) wevs =
      (wdocs.map (fun d => outcomeOf d.2 (some stdoutKey)), some st2, []) ∧
      st2.read_buf = [] ∧ st2.fd = some () :=
  ⟨⟨rfl, by decide, by decide, by decide, by decide, by decide⟩,
   C2_framing_roundtrip wdocs wclient [ ("x") ] none (some stdoutKey) wevs rfl
     (by decide) (by decide) (by decide) (by decide) (by decide)⟩

theorem responseResult_none (v : JVal) (f : Option (List Char))
    (h : hasIntExit v = false) : responseResult v f = none := by
  simp only [hasIntExit] at h
  rcases hg : objGet v exitCodeKey with _ | w
  · rw [hg] at h
    simp only [responseResult, hg]
  · cases w with
    | int n =>
      rw [hg] at h
      simp at h
    | null => simp only [responseResult, hg]
    | bool b => simp only [responseResult, hg]
    | str s => simp only [responseResult, hg]
    | arr xs => simp only [responseResult, hg]
    | obj kvs => simp only [responseResult, hg]

/-- Claim C8: a successfully parsed response without a JSON-integer `exitCode`
makes the call fail with MalformedResponse; the client stays connected (the
handle is kept) and compaction has already removed exactly the document's
bytes, leaving the leftover `T` for the next call. -/
theorem C8_malformed_response (st : aerospace) (a : List String)
    (payload : Option String) (field : Option (List Char)) (evs : List ReadEv)
    (W : List Char) (kvs : List (List Char × JAtom)) (T : List Char)
    (hfd : st.fd = some ()) (ha : a ≠ [])
    (hW : W.all isWsChar = true) (hv : validFlat kvs = true)
    (hstream : st.read_buf ++ joinEv evs = (W ++ jserFlat kvs) ++ T)
    (hchunks : chunksOnly evs = true)
    (hbuf : st.read_buf.length ≤ READ_BUFFER_SIZE)
    (hsize : (W ++ jserFlat kvs).length ≤ READ_BUFFER_SIZE)
    (hm : hasIntExit (toJVal kvs) = false) :
    ∃ pre evs2 st2,
      execute_aerospace_command (some st) (some a) payload field true evs =
        (ExecOutcome.malformed, some st2, evs2) ∧
      st2.fd = some () ∧ st2.read_buf = pre ∧ pre ++ joinEv evs2 = T ∧
      st2.command_count = (st.command_count + 1) % UINT32_MOD := by
  obtain ⟨pre, evs2, hexec, hpre, hch2, hprelen⟩ :=
    exec_doc st a payload field evs W kvs T hfd ha hW hv hstream hchunks hbuf hsize
  have hout : outcomeOf kvs field = ExecOutcome.malformed := by
    simp only [outcomeOf, responseResult_none (toJVal kvs) field hm]
  rw [hout] at hexec
  exact ⟨pre, evs2, _, hexec, hfd, rfl, hpre, rfl⟩

/-- Witness for C8: the envelope with body `stdout: x` and no `exitCode`
(the spec example), delivered in one chunk. -/
theorem C8_malformed_response_witness :
    (wclient.fd = some () ∧ ([ ("x") ] : List String) ≠ [] ∧
      (([] : List Char)).all isWsChar = true ∧ validFlat mdoc = true ∧
      wclient.read_buf ++ joinEv [ ReadEv.chunk (jserFlat mdoc) ] =
        (([] : List Char) ++ jserFlat mdoc) ++ [] ∧
      chunksOnly [ ReadEv.chunk (jserFlat mdoc) ] = true ∧
      wclient.read_buf.length ≤ READ_BUFFER_SIZE ∧
      ((([] : List Char)) ++ jserFlat mdoc).length ≤ READ_BUFFER_SIZE ∧
      hasIntExit (toJVal mdoc) = false) ∧
    ∃ pre evs2 st2,
      execute_aerospace_command (some wclient) (some [ ("x") ]) none none true
          [ ReadEv.chunk (jserFlat mdoc) ] =
        (ExecOutcome.malformed, some st2, evs2) ∧
      st2.fd = some () ∧ st2.read_buf = pre ∧ pre ++ joinEv evs2 = [] ∧
      st2.command_count = (wclient.command_count + 1) % UINT32_MOD :=
  ⟨⟨rfl, by decide, by decide, by decide, by decide, by decide, by decide, by decide,
    by decide⟩,
   C8_malformed_response wclient [ ("x") ] none none [ ReadEv.chunk (jserFlat mdoc) ]
     [] mdoc [] rfl (by decide) (by decide) (by decide) (by decide) (by decide)
     (by decide) (by decide) (by decide)⟩

theorem parseDoc_xs (l : List Char) (h : ∀ c ∈ l, c = 'x') : parseDoc l = none := by
  cases l with
  | nil => rfl
  | cons c cs =>
    have hc : c = 'x' := h c (by simp)
    subst hc
    have hfuel : 2 * (('x' :: cs).length) + 2 = (2 * cs.length + 3) + 1 := by
      simp [List.length_cons]
      ring
    simp only [parseDoc, @skipWs_cons_not 'x' cs (by decide), hfuel]
    rw [parseValCore_num (2 * cs.length + 3) 'x' cs (by decide) (by decide) (by decide)
      (by decide) (by decide) (by decide)]
    rfl

/-- Claim C3: when the stream offers at least a buffer's worth of bytes from
which no prefix parses as a complete JSON document, the read buffer reaches
full capacity, the call fails with a framing overflow, the entire buffer is
discarded, and the client is NOT disconnected — the handle is retained.  The
model is total, so the overflow cannot crash, and the failing result carries
no truncated data. -/
theorem C3_framing_overflow (st : aerospace) (a : List String)
    (payload : Option String) (field : Option (List Char)) (evs : List ReadEv)
    (hfd : st.fd = some ()) (ha : a ≠ []) (hchunks : chunksOnly evs = true)
    (hbuf : st.read_buf.length ≤ READ_BUFFER_SIZE)
    (hp : ∀ j, j ≤ READ_BUFFER_SIZE →
      parseDoc ((st.read_buf ++ joinEv evs).take j) = none)
    (hS : READ_BUFFER_SIZE ≤ (st.read_buf ++ joinEv evs).length) :
    ∃ evs2 st2,
      execute_aerospace_command (some st) (some a) payload field true evs =
        (ExecOutcome.bufOverflow, some st2, evs2) ∧
      st2.fd = some () ∧ st2.read_buf = [] ∧
      st2.command_count = (st.command_count + 1) % UINT32_MOD ∧
      outcomeResult ExecOutcome.bufOverflow = none := by
  obtain ⟨evs2, hrl⟩ := readLoop_ovf (READ_BUFFER_SIZE + 2) st.read_buf evs
    (st.read_buf ++ joinEv evs) rfl hchunks hp hbuf hS (by omega)
  have ha0 : ¬ (a.length = 0) := fun h => ha (List.length_eq_zero.mp h)
  have hfd0 : ¬ (st.fd.isNone = true) := by rw [hfd]; simp
  refine ⟨evs2, { st with
    command_count := (st.command_count + 1) % UINT32_MOD
    read_buf := [] }, ?_, hfd, rfl, rfl, rfl⟩
  simp only [execute_aerospace_command, if_neg ha0, if_neg hfd0,
    if_neg (by simp : ¬ ((true : Bool) = false))]
  have hbufsame :
      ({ st with command_count := (st.command_count + 1) % UINT32_MOD } :
        aerospace).read_buf = st.read_buf := rfl
  rw [hbufsame]
  simp only [hrl]

/-- Witness for C3: a buffer-sized burst of bytes that never forms a JSON
document (all `x`) triggers the overflow on a fresh client. -/
theorem C3_framing_overflow_witness :
    (wclient.fd = some () ∧ ([ ("x") ] : List String) ≠ [] ∧
      chunksOnly [ ReadEv.chunk (List.replicate 8192 'x') ] = true ∧
      wclient.read_buf.length ≤ READ_BUFFER_SIZE ∧
      (∀ j, j ≤ READ_BUFFER_SIZE →
        parseDoc ((wclient.read_buf ++
          joinEv [ ReadEv.chunk (List.replicate 8192 'x') ]).take j) = none) ∧
      READ_BUFFER_SIZE ≤
        (wclient.read_buf ++ joinEv [ ReadEv.chunk (List.replicate 8192 'x') ]).length) ∧
    ∃ evs2 st2,
      execute_aerospace_command (some wclient) (some [ ("x") ]) none none true
          [ ReadEv.chunk (List.replicate 8192 'x') ] =
        (ExecOutcome.bufOverflow, some st2, evs2) ∧
      st2.fd = some () ∧ st2.read_buf = [] ∧
      st2.command_count = (wclient.command_count + 1) % UINT32_MOD ∧
      outcomeResult ExecOutcome.bufOverflow = none := by
  have hxs : ∀ j, j ≤ READ_BUFFER_SIZE →
      parseDoc ((wclient.read_buf ++
        joinEv [ ReadEv.chunk (List.replicate 8192 'x') ]).take j) = none := by
    intro j hj
    apply parseDoc_xs
    intro c hc
    have hc2 := List.take_subset j _ hc
    have hR : wclient.read_buf ++ joinEv [ ReadEv.chunk (List.replicate 8192 'x') ] =
        List.replicate 8192 'x' := by
      show [] ++ (List.replicate 8192 'x' ++ []) = List.replicate 8192 'x'
      rw [List.nil_append, List.append_nil]
    rw [hR] at hc2
    exact List.eq_of_mem_replicate hc2
  have hR : wclient.read_buf ++ joinEv [ ReadEv.chunk (List.replicate 8192 'x') ] =
      List.replicate 8192 'x' := by
    show [] ++ (List.replicate 8192 'x' ++ []) = List.replicate 8192 'x'
    rw [List.nil_append, List.append_nil]
  have hlen : READ_BUFFER_SIZE ≤
      (wclient.read_buf ++ joinEv [ ReadEv.chunk (List.replicate 8192 'x') ]).length := by
    rw [hR, List.length_replicate]
    decide
  have hch : chunksOnly [ ReadEv.chunk (List.replicate 8192 'x') ] = true := by
    simp only [chunksOnly, List.all_cons, List.all_nil, Bool.and_true, chunkOk,
      decide_eq_true_eq]
    intro h
    have hl := congrArg List.length h
    rw [List.length_replicate] at hl
    simp at hl
  exact ⟨⟨rfl, by decide, hch, by decide, hxs, hlen⟩,
    C3_framing_overflow wclient [ ("x") ] none none
      [ ReadEv.chunk (List.replicate 8192 'x') ] rfl (by decide) hch (by decide) hxs hlen⟩

/-- Claim C4: on an established connection, each fatal transport condition —
a failed write, a zero-byte read (peer closed), a read timeout, and any other
read error — fails the call (NULL result), closes the handle and clears the
buffer; and a subsequent `aerospace_ensure_connected` on the disconnected
client attempts a fresh connect, succeeding exactly when the connect does. -/
theorem C4_transport_failures (st : aerospace) (a : List String)
    (payload : Option String) (field : Option (List Char)) (evs : List ReadEv)
    (hfd : st.fd = some ()) (ha : a ≠ []) :
    (execute_aerospace_command (some st) (some a) payload field false evs =
       (ExecOutcome.writeFailed, some { st with fd := none, read_buf := [] }, evs)) ∧
    (∀ o c2 evs2,
      execute_aerospace_command (some st) (some a) payload field true evs = (o, c2, evs2) →
      (o = ExecOutcome.peerClosed ∨ o = ExecOutcome.readTimeout ∨
       o = ExecOutcome.readError) →
      outcomeResult o = none ∧
      ∃ st2, c2 = some st2 ∧ st2.fd = none ∧ st2.read_buf = []) ∧
    (st.read_buf = [] →
      execute_aerospace_command (some st) (some a) payload field true
          (ReadEv.closed :: evs) =
        (ExecOutcome.peerClosed,
         some { st with
           fd := none
           read_buf := []
           command_count := (st.command_count + 1) % UINT32_MOD }, evs)) ∧
    (st.read_buf = [] →
      execute_aerospace_command (some st) (some a) payload field true
          (ReadEv.errTimeout :: evs) =
        (ExecOutcome.readTimeout,
         some { st with
           fd := none
           read_buf := []
           command_count := (st.command_count + 1) % UINT32_MOD }, evs)) ∧
    (st.read_buf = [] →
      execute_aerospace_command (some st) (some a) payload field true
          (ReadEv.errOther :: evs) =
        (ExecOutcome.readError,
         some { st with
           fd := none
           read_buf := []
           command_count := (st.command_count + 1) % UINT32_MOD }, evs)) ∧
    (∀ st3 ok, st3.fd = none → st3.socket_path.isSome = true →
      aerospace_ensure_connected (some st3) ok =
        (if ok then 1 else 0,
         some { st3 with
           fd := if ok then some () else none
           read_buf := []
           command_count := 0 })) := by
  have ha0 : ¬ (a.length = 0) := fun h => ha (List.length_eq_zero.mp h)
  have hfd0 : ¬ (st.fd.isNone = true) := by rw [hfd]; simp
  refine ⟨?_, ?_, ?_, ?_, ?_, ?_⟩
  · simp only [execute_aerospace_command, if_neg ha0, if_neg hfd0, if_true]
  · intro o c2 evs2 hexec ho
    simp only [execute_aerospace_command, if_neg ha0, if_neg hfd0,
      if_neg (by simp : ¬ ((true : Bool) = false))] at hexec
    cases hrl : readLoop (READ_BUFFER_SIZE + 2) st.read_buf evs with
    | parsed v c b e =>
      rw [hrl] at hexec
      rcases hres : responseResult v field with _ | r
      · simp only [hres] at hexec
        injection hexec with h1 h2
        subst h1
        rcases ho with h | h | h <;> simp at h
      · simp only [hres] at hexec
        injection hexec with h1 h2
        subst h1
        rcases ho with h | h | h <;> simp at h
    | overflow e =>
      rw [hrl] at hexec
      injection hexec with h1 h2
      subst h1
      rcases ho with h | h | h <;> simp at h
    | peerClosed e =>
      rw [hrl] at hexec
      injection hexec with h1 h2
      injection h2 with h2 h3
      subst h1
      exact ⟨rfl, _, h2.symm, rfl, rfl⟩
    | timedOut e =>
      rw [hrl] at hexec
      injection hexec with h1 h2
      injection h2 with h2 h3
      subst h1
      exact ⟨rfl, _, h2.symm, rfl, rfl⟩
    | readErr e =>
      rw [hrl] at hexec
      injection hexec with h1 h2
      injection h2 with h2 h3
      subst h1
      exact ⟨rfl, _, h2.symm, rfl, rfl⟩
    | fuelOut e =>
      rw [hrl] at hexec
      injection hexec with h1 h2
      subst h1
      rcases ho with h | h | h <;> simp at h
  · intro hbuf
    simp only [execute_aerospace_command, if_neg ha0, if_neg hfd0,
      if_neg (by simp : ¬ ((true : Bool) = false))]
    have hb1 : ({ st with command_count := (st.command_count + 1) % UINT32_MOD } :
        aerospace).read_buf = [] := hbuf
    rw [hb1]
    rfl
  · intro hbuf
    simp only [execute_aerospace_command, if_neg ha0, if_neg hfd0,
      if_neg (by simp : ¬ ((true : Bool) = false))]
    have hb1 : ({ st with command_count := (st.command_count + 1) % UINT32_MOD } :
        aerospace).read_buf = [] := hbuf
    rw [hb1]
    rfl
  · intro hbuf
    simp only [execute_aerospace_command, if_neg ha0, if_neg hfd0,
      if_neg (by simp : ¬ ((true : Bool) = false))]
    have hb1 : ({ st with command_count := (st.command_count + 1) % UINT32_MOD } :
        aerospace).read_buf = [] := hbuf
    rw [hb1]
    rfl
  · intro st3 ok h1 h2
    obtain ⟨p, hp⟩ := Option.isSome_iff_exists.mp h2
    have h1b : st3.fd.isNone = true := by rw [h1]; rfl
    cases ok with
    | true =>
      simp only [aerospace_ensure_connected, if_pos h1b, reconnect, hp]
      rfl
    | false =>
      simp only [aerospace_ensure_connected, if_pos h1b, reconnect, hp]
      rfl

/-- Witness for C4: on a fresh connected client, a failed write and a
peer-closed read both leave the client disconnected with an empty buffer. -/
theorem C4_transport_failures_witness :
    execute_aerospace_command (some wclient) (some [ ("x") ]) none none false [] =
      (ExecOutcome.writeFailed, some { wclient with fd := none, read_buf := [] }, []) ∧
    execute_aerospace_command (some wclient) (some [ ("x") ]) none none true
        [ ReadEv.closed ] =
      (ExecOutcome.peerClosed,
       some { wclient with
         fd := none
         read_buf := []
         command_count := (wclient.command_count + 1) % UINT32_MOD }, []) :=
  ⟨(C4_transport_failures wclient [ ("x") ] none none [] rfl (by decide)).1,
   (C4_transport_failures wclient [ ("x") ] none none [] rfl (by decide)).2.2.1 rfl⟩

/-- Claim C5: once the command counter has reached the configured threshold
(`AEROSPACE_RECONNECT_INTERVAL`, 50), the next `aerospace_ensure_connected`
closes the handle and attempts a fresh connect; buffer and counter are reset
to zero regardless of the outcome, the call returns 1 and a held handle when
the connect succeeds and 0 with a disconnected client when it fails. -/
theorem C5_proactive_refresh (st : aerospace) (ok : Bool)
    (hfd : st.fd = some ())
    (hcnt : AEROSPACE_RECONNECT_INTERVAL ≤ st.command_count)
    (hsp : st.socket_path.isSome = true) :
    aerospace_ensure_connected (some st) ok =
      (if ok then 1 else 0,
       some { st with
         fd := if ok then some () else none
         read_buf := []
         command_count := 0 }) := by
  obtain ⟨p, hp⟩ := Option.isSome_iff_exists.mp hsp
  have hfd0 : ¬ (st.fd.isNone = true) := by rw [hfd]; simp
  cases ok with
  | true =>
    simp only [aerospace_ensure_connected, if_neg hfd0, if_pos hcnt, reconnect, hp]
    rfl
  | false =>
    simp only [aerospace_ensure_connected, if_neg hfd0, if_pos hcnt, reconnect, hp]
    rfl

/-- Witness for C5: a client that has issued 50 commands is refreshed; with a
failing reconnect it ends up disconnected with buffer and counter zeroed. -/
theorem C5_proactive_refresh_witness :
    aerospace_ensure_connected
        (some { wclient with command_count := 50 }) false =
      (0, some { wclient with
        fd := none
        read_buf := []
        command_count := 0 }) := by
  have h := C5_proactive_refresh { wclient with command_count := 50 } false rfl
    (by decide) (by decide)
  simpa using h

/-- Claim C6: whenever the write phase succeeds, `execute_aerospace_command`
increments the per-connection command counter exactly once (in the modular
arithmetic of the C `unsigned int`), whatever the subsequent read and parse
do; when the write fails the counter is untouched. -/
theorem C6_counter_increment (st : aerospace) (a : List String)
    (payload : Option String) (field : Option (List Char)) (evs : List ReadEv)
    (hfd : st.fd = some ()) (ha : a ≠ []) :
    (∀ o c2 evs2,
      execute_aerospace_command (some st) (some a) payload field true evs = (o, c2, evs2) →
      ∃ st2, c2 = some st2 ∧
        st2.command_count = (st.command_count + 1) % UINT32_MOD) ∧
    (∀ o c2 evs2,
      execute_aerospace_command (some st) (some a) payload field false evs = (o, c2, evs2) →
      ∃ st2, c2 = some st2 ∧ st2.command_count = st.command_count) := by
  have ha0 : ¬ (a.length = 0) := fun h => ha (List.length_eq_zero.mp h)
  have hfd0 : ¬ (st.fd.isNone = true) := by rw [hfd]; simp
  constructor
  · intro o c2 evs2 hexec
    simp only [execute_aerospace_command, if_neg ha0, if_neg hfd0,
      if_neg (by simp : ¬ ((true : Bool) = false))] at hexec
    cases hrl : readLoop (READ_BUFFER_SIZE + 2) st.read_buf evs with
    | parsed v c b e =>
      rw [hrl] at hexec
      rcases hres : responseResult v field with _ | r
      · simp only [hres] at hexec
        injection hexec with h1 h2
        injection h2 with h2 h3
        exact ⟨_, h2.symm, rfl⟩
      · simp only [hres] at hexec
        injection hexec with h1 h2
        injection h2 with h2 h3
        exact ⟨_, h2.symm, rfl⟩
    | overflow e =>
      rw [hrl] at hexec
      injection hexec with h1 h2
      injection h2 with h2 h3
      exact ⟨_, h2.symm, rfl⟩
    | peerClosed e =>
      rw [hrl] at hexec
      injection hexec with h1 h2
      injection h2 with h2 h3
      exact ⟨_, h2.symm, rfl⟩
    | timedOut e =>
      rw [hrl] at hexec
      injection hexec with h1 h2
      injection h2 with h2 h3
      exact ⟨_, h2.symm, rfl⟩
    | readErr e =>
      rw [hrl] at hexec
      injection hexec with h1 h2
      injection h2 with h2 h3
      exact ⟨_, h2.symm, rfl⟩
    | fuelOut e =>
      rw [hrl] at hexec
      injection hexec with h1 h2
      injection h2 with h2 h3
      exact ⟨_, h2.symm, rfl⟩
  · intro o c2 evs2 hexec
    simp only [execute_aerospace_command, if_neg ha0, if_neg hfd0, if_true] at hexec
    injection hexec with h1 h2
    injection h2 with h2 h3
    exact ⟨_, h2.symm, rfl⟩

/-- Witness for C6: on a fresh client a successful exchange bumps the counter
from 0 to 1, and a failed write leaves it at 0. -/
theorem C6_counter_increment_witness :
    (∀ o c2 evs2,
      execute_aerospace_command (some wclient) (some [ ("x") ]) none none true [] =
        (o, c2, evs2) →
      ∃ st2, c2 = some st2 ∧
        st2.command_count = (wclient.command_count + 1) % UINT32_MOD) ∧
    (∀ o c2 evs2,
      execute_aerospace_command (some wclient) (some [ ("x") ]) none none false [] =
        (o, c2, evs2) →
      ∃ st2, c2 = some st2 ∧ st2.command_count = wclient.command_count) :=
  C6_counter_increment wclient [ ("x") ] none none [] rfl (by decide)

/-- Claim C7, amended: result selection branches on the `exitCode` value
truncated to the 32-bit C `int` (`wrap32`, aerospace.c:222), not on the JSON
integer itself.  If the truncated value is non-zero the result is the string
value of `stderr` when present as a string (else no result), regardless of the
success field; if it is zero, the result is the string value of the supplied
success field when present as a string, and no result (a valid non-failure
outcome) when the field is absent or no field name was supplied. -/
theorem C7_result_selection (root : JVal) (field : Option (List Char)) (n : Int)
    (hget : objGet root exitCodeKey = some (JVal.int n)) :
    (wrap32 n ≠ 0 → responseResult root field =
      some (match objGet root stderrKey with
            | some (JVal.str s) => some s
            | _ => none)) ∧
    (wrap32 n = 0 →
      (∀ f, field = some f → responseResult root field =
        some (match objGet root f with
              | some (JVal.str s) => some s
              | _ => none)) ∧
      (field = none → responseResult root field = some none)) := by
  constructor
  · intro hne
    simp only [responseResult, hget, if_pos hne]
  · intro hz
    have hnn : ¬ (wrap32 n ≠ 0) := fun h => h hz
    constructor
    · intro f hf
      subst hf
      simp only [responseResult, hget, if_neg hnn]
    · intro hf
      subst hf
      simp only [responseResult, hget, if_neg hnn]

/-- Counterexample to C7 as stated: the document `bigdoc` has the JSON-integer
`exitCode` 4294967296 (non-zero) and `stderr` present as the string `boom`,
yet the executed call returns the success field `stdout` (`ok`), because the C
cast truncates 2^32 to 0.  The claim required the `stderr` value here. -/
theorem C7_result_selection_cex :
    objGet (toJVal bigdoc) exitCodeKey = some (JVal.int 4294967296) ∧
    (4294967296 : Int) ≠ 0 ∧
    objGet (toJVal bigdoc) stderrKey = some (JVal.str [ 'b', 'o', 'o', 'm' ]) ∧
    responseResult (toJVal bigdoc) (some stdoutKey) = some (some [ 'o', 'k' ]) ∧
    execute_aerospace_command (some wclient) (some [ ("x") ]) none (some stdoutKey) true
        [ ReadEv.chunk (jserFlat bigdoc) ] =
      (ExecOutcome.success (some [ 'o', 'k' ]),
       some { wclient with command_count := 1, read_buf := [] }, []) := by
  refine ⟨rfl, by decide, rfl, ?_, ?_⟩
  · rfl
  · rfl

/-- Witness for the amended C7: a zero `exitCode` with success field `stdout`
returns the `stdout` string. -/
theorem C7_result_selection_witness :
    objGet (toJVal wdoc1) exitCodeKey = some (JVal.int 0) ∧
    ((wrap32 0 ≠ 0 → responseResult (toJVal wdoc1) (some stdoutKey) =
        some (match objGet (toJVal wdoc1) stderrKey with
              | some (JVal.str s) => some s
              | _ => none)) ∧
     (wrap32 0 = 0 →
       (∀ f, (some stdoutKey : Option (List Char)) = some f →
         responseResult (toJVal wdoc1) (some stdoutKey) =
           some (match objGet (toJVal wdoc1) f with
                 | some (JVal.str s) => some s
                 | _ => none)) ∧
       ((some stdoutKey : Option (List Char)) = none →
         responseResult (toJVal wdoc1) (some stdoutKey) = some none))) :=
  ⟨rfl, C7_result_selection (toJVal wdoc1) (some stdoutKey) 0 rfl⟩

/-- Claim C9: a NULL client, a NULL argument array, an empty argument list, or
a client holding no handle makes `execute_aerospace_command` fail before any
write, returning no result and leaving the client (handle, buffer, counter)
and the socket stream unchanged. -/
theorem C9_argument_guards (client : Option aerospace) (args : Option (List String))
    (payload : Option String) (field : Option (List Char)) (wOk : Bool)
    (evs : List ReadEv)
    (h : client = none ∨ args = none ∨ args = some [] ∨
         (∃ st, client = some st ∧ st.fd = none)) :
    ∃ o, execute_aerospace_command client args payload field wOk evs = (o, client, evs) ∧
      outcomeResult o = none ∧
      (o = ExecOutcome.invalidArgs ∨ o = ExecOutcome.notConnected) := by
  rcases h with h | h | h | ⟨st, hc, hfdn⟩
  · subst h
    exact ⟨ExecOutcome.invalidArgs, rfl, rfl, Or.inl rfl⟩
  · subst h
    cases client with
    | none => exact ⟨ExecOutcome.invalidArgs, rfl, rfl, Or.inl rfl⟩
    | some st => exact ⟨ExecOutcome.invalidArgs, rfl, rfl, Or.inl rfl⟩
  · subst h
    cases client with
    | none => exact ⟨ExecOutcome.invalidArgs, rfl, rfl, Or.inl rfl⟩
    | some st =>
      refine ⟨ExecOutcome.invalidArgs, ?_, rfl, Or.inl rfl⟩
      simp [execute_aerospace_command]
  · subst hc
    cases args with
    | none => exact ⟨ExecOutcome.invalidArgs, rfl, rfl, Or.inl rfl⟩
    | some a =>
      by_cases ha : a.length = 0
      · refine ⟨ExecOutcome.invalidArgs, ?_, rfl, Or.inl rfl⟩
        simp [execute_aerospace_command, ha]
      · refine ⟨ExecOutcome.notConnected, ?_, rfl, Or.inr rfl⟩
        have hfd0 : st.fd.isNone = true := by rw [hfdn]; rfl
        simp [execute_aerospace_command, ha, hfd0]

/-- Witness for C9: a NULL client fails with no result and no state. -/
theorem C9_argument_guards_witness :
    ∃ o, execute_aerospace_command none (some [ ("x") ]) none none true [] =
        (o, none, []) ∧
      outcomeResult o = none ∧
      (o = ExecOutcome.invalidArgs ∨ o = ExecOutcome.notConnected) :=
  C9_argument_guards none (some [ ("x") ]) none none true [] (Or.inl rfl)

/-- Claim C10: `aerospace_ensure_connected` on a NULL client returns 0 with no
client, and `aerospace_close` on a NULL client is a no-op; both are total
functions of the model, so neither dereferences the missing client nor
terminates the process. -/
theorem C10_null_client (ok : Bool) :
    aerospace_ensure_connected none ok = (0, none) ∧ aerospace_close none = none :=
  ⟨rfl, rfl⟩

theorem ensure_states (st0 : aerospace) (ok : Bool) :
    (aerospace_ensure_connected (some st0) ok).2 = some st0 ∨
    (aerospace_ensure_connected (some st0) ok).2 =
      some { st0 with
        fd := if ok then some () else none
        read_buf := []
        command_count := 0 } := by
  by_cases h1 : st0.fd.isNone = true
  · have hfd : st0.fd = none := Option.isNone_iff_eq_none.mp h1
    rcases hsp : st0.socket_path with _ | p
    · left
      simp [aerospace_ensure_connected, reconnect, hsp, hfd, h1]
    · right
      simp [aerospace_ensure_connected, reconnect, hsp, hfd, h1]
  · have hfd : ¬ (st0.fd = none) := fun hx => h1 (by rw [hx]; rfl)
    by_cases h2 : AEROSPACE_RECONNECT_INTERVAL ≤ st0.command_count
    · rcases hsp : st0.socket_path with _ | p
      · left
        simp [aerospace_ensure_connected, reconnect, hsp, h1, hfd, h2]
      · right
        simp [aerospace_ensure_connected, reconnect, hsp, h1, hfd, h2]
    · left
      simp [aerospace_ensure_connected, h1, hfd, h2]

theorem exec_inv (st0 : aerospace) (args : Option (List String))
    (payload : Option String) (field : Option (List Char)) (wOk : Bool)
    (evs : List ReadEv)
    (h1 : st0.read_buf.length ≤ READ_BUFFER_SIZE)
    (h2 : st0.fd = none → st0.read_buf = []) :
    ∀ o c2 evs2,
      execute_aerospace_command (some st0) args payload field wOk evs = (o, c2, evs2) →
      ∀ st, c2 = some st → st.read_buf.length ≤ READ_BUFFER_SIZE ∧
        (st.fd = none → st.read_buf = []) := by
  intro o c2 evs2 hexec st hc2
  cases args with
  | none =>
    simp only [execute_aerospace_command] at hexec
    injection hexec with ha hb
    injection hb with hb hcx
    rw [← hb] at hc2
    injection hc2 with hc2
    subst hc2
    exact ⟨h1, h2⟩
  | some a =>
    by_cases ha : a.length = 0
    · simp only [execute_aerospace_command, if_pos ha] at hexec
      injection hexec with hx hb
      injection hb with hb hcx
      rw [← hb] at hc2
      injection hc2 with hc2
      subst hc2
      exact ⟨h1, h2⟩
    · by_cases hfdn : st0.fd.isNone = true
      · simp only [execute_aerospace_command, if_neg ha, if_pos hfdn] at hexec
        injection hexec with hx hb
        injection hb with hb hcx
        rw [← hb] at hc2
        injection hc2 with hc2
        subst hc2
        exact ⟨h1, h2⟩
      · have hfdne : st0.fd ≠ none := by
          intro hx
          exact hfdn (by rw [hx]; rfl)
        cases wOk with
        | false =>
          simp only [execute_aerospace_command, if_neg ha, if_neg hfdn, if_true] at hexec
          injection hexec with hx hb
          injection hb with hb hcx
          rw [← hb] at hc2
          injection hc2 with hc2
          subst hc2
          exact ⟨by simp, fun _ => rfl⟩
        | true =>
          simp only [execute_aerospace_command, if_neg ha, if_neg hfdn,
            if_neg (by simp : ¬ ((true : Bool) = false))] at hexec
          cases hrl : readLoop (READ_BUFFER_SIZE + 2) st0.read_buf evs with
          | parsed v c b e =>
            rw [hrl] at hexec
            have hblen := readLoop_parsed_len (READ_BUFFER_SIZE + 2) st0.read_buf evs
              v c b e hrl h1
            rcases hres : responseResult v field with _ | r <;>
              simp only [hres] at hexec <;>
              (injection hexec with hx hb
               injection hb with hb hcx
               rw [← hb] at hc2
               injection hc2 with hc2
               subst hc2
               refine ⟨?_, fun hx => absurd hx hfdne⟩
               simp only [List.length_drop]
               omega)
          | overflow e =>
            rw [hrl] at hexec
            injection hexec with hx hb
            injection hb with hb hcx
            rw [← hb] at hc2
            injection hc2 with hc2
            subst hc2
            exact ⟨by simp, fun _ => rfl⟩
          | peerClosed e =>
            rw [hrl] at hexec
            injection hexec with hx hb
            injection hb with hb hcx
            rw [← hb] at hc2
            injection hc2 with hc2
            subst hc2
            exact ⟨by simp, fun _ => rfl⟩
          | timedOut e =>
            rw [hrl] at hexec
            injection hexec with hx hb
            injection hb with hb hcx
            rw [← hb] at hc2
            injection hc2 with hc2
            subst hc2
            exact ⟨by simp, fun _ => rfl⟩
          | readErr e =>
            rw [hrl] at hexec
            injection hexec with hx hb
            injection hb with hb hcx
            rw [← hb] at hc2
            injection hc2 with hc2
            subst hc2
            exact ⟨by simp, fun _ => rfl⟩
          | fuelOut e =>
            rw [hrl] at hexec
            injection hexec with hx hb
            injection hb with hb hcx
            rw [← hb] at hc2
            injection hc2 with hc2
            subst hc2
            exact ⟨h1, fun hx => absurd hx hfdne⟩

/-- Claim C1, amended: in every client state reachable through the public
operations, the read buffer's valid length never exceeds the 8192-byte
capacity, and whenever the socket handle is absent the buffer's valid length
is zero.  (The original claim also demanded a zero command counter whenever
the handle is absent; that part is refuted by `C1_buffer_invariant_cex`: the
disconnect paths inside `execute_aerospace_command` reset the buffer but not
the counter — the counter is only reset when `reconnect` runs.) -/
theorem C1_buffer_invariant : ∀ c, Reachable c → ∀ st, c = some st →
    st.read_buf.length ≤ READ_BUFFER_SIZE ∧ (st.fd = none → st.read_buf = []) := by
  intro c hr
  induction hr with
  | new sp dp ok =>
    intro st h
    injection h with h
    subst h
    exact ⟨by simp [aerospace_new], fun _ => rfl⟩
  | ensure c0 ok hr0 ih =>
    intro st h
    cases c0 with
    | none => simp [aerospace_ensure_connected] at h
    | some st0 =>
      rcases ensure_states st0 ok with he | he
      · rw [he] at h
        injection h with h
        subst h
        exact ih st0 rfl
      · rw [he] at h
        injection h with h
        subst h
        exact ⟨by simp, fun _ => rfl⟩
  | closeStep c0 hr0 ih =>
    intro st h
    cases c0 with
    | none => simp [aerospace_close] at h
    | some st0 => simp [aerospace_close] at h
  | workspace c0 w cmd payload wOk reads hr0 ih =>
    intro st h
    cases c0 with
    | none => simp [aerospace_workspace, execute_aerospace_command] at h
    | some st0 =>
      have hinv := ih st0 rfl
      rcases hexec : aerospace_workspace (some st0) w cmd payload wOk reads with ⟨o, c2, evs2⟩
      rw [hexec] at h
      exact exec_inv st0 _ _ _ _ _ hinv.1 hinv.2 o c2 evs2 hexec st h
  | switch c0 d wOk reads hr0 ih =>
    intro st h
    cases c0 with
    | none => simp [aerospace_switch, aerospace_workspace, execute_aerospace_command] at h
    | some st0 =>
      have hinv := ih st0 rfl
      rcases hexec : aerospace_switch (some st0) d wOk reads with ⟨o, c2, evs2⟩
      rw [hexec] at h
      simp only [aerospace_switch, aerospace_workspace] at hexec
      exact exec_inv st0 _ _ _ _ _ hinv.1 hinv.2 o c2 evs2 hexec st h
  | listws c0 ie wOk reads hr0 ih =>
    intro st h
    cases c0 with
    | none =>
      cases ie <;> simp [aerospace_list_workspaces, execute_aerospace_command] at h
    | some st0 =>
      have hinv := ih st0 rfl
      cases ie with
      | true =>
        rcases hexec : aerospace_list_workspaces (some st0) true wOk reads with ⟨o, c2, evs2⟩
        rw [hexec] at h
        simp only [aerospace_list_workspaces, if_true] at hexec
        exact exec_inv st0 _ _ _ _ _ hinv.1 hinv.2 o c2 evs2 hexec st h
      | false =>
        rcases hexec : aerospace_list_workspaces (some st0) false wOk reads with ⟨o, c2, evs2⟩
        rw [hexec] at h
        simp [aerospace_list_workspaces] at hexec
        exact exec_inv st0 _ _ _ _ _ hinv.1 hinv.2 o c2 evs2 hexec st h

/-- Counterexample to C1 as stated: a reachable state (fresh client, one
workspace command whose read sees the peer close the connection) has no
handle but a command counter of 1, because the disconnect path of
`execute_aerospace_command` does not reset the counter. -/
theorem C1_buffer_invariant_cex :
    ∃ st, Reachable (some st) ∧ st.fd = none ∧ st.command_count ≠ 0 := by
  refine ⟨⟨none, some [ 'p' ], [], 1⟩, ?_, rfl, by decide⟩
  have h := Reachable.workspace (some (aerospace_new none [ 'p' ] true)) false
    ("n") ("") true [ ReadEv.closed ] (Reachable.new none [ 'p' ] true)
  have he : (aerospace_workspace (some (aerospace_new none [ 'p' ] true)) false
      ("n") ("") true [ ReadEv.closed ]).2.1 =
      some ⟨none, some [ 'p' ], [], 1⟩ := by decide
  rw [he] at h
  exact h

/-- Witness for the amended C1 at a concrete reachable state. -/
theorem C1_buffer_invariant_witness :
    (aerospace_new none [ 'p' ] true).read_buf.length ≤ READ_BUFFER_SIZE ∧
    ((aerospace_new none [ 'p' ] true).fd = none →
      (aerospace_new none [ 'p' ] true).read_buf = []) :=
  C1_buffer_invariant (some (aerospace_new none [ 'p' ] true))
    (Reachable.new none [ 'p' ] true) (aerospace_new none [ 'p' ] true) rfl
